import Mathlib

/-!
Verification development for the line-search-bot query pipeline.

The Python sources (`search_core.py`, `nlp_extract.py`, `disambiguator.py`,
`postprocess.py`) are shallowly embedded: strings are `List Char`, and the
Python floats produced by parsing decimal literals are modelled exactly by
the type `Dec` of non-negative decimal fractions (numerator over a power of
ten).  Every number the programs handle is parsed from such a literal, and
every use is an order comparison, a min/max or a clamp, so the exact
decimal model agrees with IEEE float behaviour (float conversion of short
decimal literals is strictly monotone).  Dict-shaped queries and rows are
modelled as structures plus association lists.  Regex searches are embedded
as explicit left-to-right scans with the same leftmost-match semantics,
including the one backtracking case that changes observable behaviour
(dropping an optional fractional part before a word-boundary test).
Character-class predicates (`\s`, `\w`, `\d`) are modelled over the
character repertoire that occurs in this application (ASCII, JIS
punctuation, kana, kanji, full/half-width forms).
-/

namespace LineSearchBot

/-- Strings are modelled as lists of characters. -/
abbrev Str := List Char

/-- Exact model of a Python float parsed from a decimal literal:
`num / den` with `den` a positive power of ten. -/
structure Dec where
  num : ℕ
  den : ℕ
deriving DecidableEq

instance : OfNat Dec n := ⟨⟨n, 1⟩⟩

namespace Dec

/-- Order: `a ≤ b` by cross multiplication (denominators are positive). -/
def le (a b : Dec) : Bool := a.num * b.den ≤ b.num * a.den

/-- Strict order by cross multiplication. -/
def lt (a b : Dec) : Bool := a.num * b.den < b.num * a.den

/-- Numeric (Python `==`) equality by cross multiplication. -/
def beq (a b : Dec) : Bool := a.num * b.den = b.num * a.den

/-- Python `min(a, b)`: returns `b` only when `b < a`. -/
def minD (a b : Dec) : Dec := if lt b a then b else a

/-- Python `max(a, b)`: returns `b` only when `a < b`. -/
def maxD (a b : Dec) : Dec := if lt a b then b else a

/-- Numeric membership in a list (Python `in` on floats). -/
def memD (x : Dec) (l : List Dec) : Bool := l.any (fun y => beq x y)

end Dec

instance : LE Dec := ⟨fun a b => Dec.le a b = true⟩
instance : LT Dec := ⟨fun a b => Dec.lt a b = true⟩

instance (a b : Dec) : Decidable (a ≤ b) :=
  inferInstanceAs (Decidable (Dec.le a b = true))

instance (a b : Dec) : Decidable (a < b) :=
  inferInstanceAs (Decidable (Dec.lt a b = true))

/-- Model of Python's whitespace class (`\s` and `str.strip`) over the
characters that occur in this application. -/
def isPySpace (c : Char) : Bool :=
  c = ' ' || c = '\t' || c = '\n' || c = '\r' ||
  c = '\x0b' || c = '\x0c' || c = ' ' || c = '　'

/-- Model of Python's unicode `\d`: ASCII digits and full-width digits. -/
def isDigitU (c : Char) : Bool :=
  c.isDigit || ('０' ≤ c && c ≤ '９')

/-- Numeric value of a (possibly full-width) decimal digit. -/
def digitValU (c : Char) : ℕ :=
  if c.isDigit then c.toNat - 48 else c.toNat - 0xFF10

/-- Value of a run of decimal digits. -/
def digitsVal (l : Str) : ℕ :=
  l.foldl (fun a c => 10 * a + digitValU c) 0

/-- Model of Python's unicode `\w` over the repertoire of this application:
ASCII alphanumerics and underscore, full-width alphanumerics, hiragana,
katakana, CJK ideographs, and half-width katakana. -/
def isWordU (c : Char) : Bool :=
  c.isAlphanum || c = '_' ||
  ('Ａ' ≤ c && c ≤ 'Ｚ') || ('ａ' ≤ c && c ≤ 'ｚ') || ('０' ≤ c && c ≤ '９') ||
  ('぀' ≤ c && c ≤ 'ヿ') || ('一' ≤ c && c ≤ '鿿') ||
  ('ｦ' ≤ c && c ≤ 'ﾟ')

/-- `True` when the list is empty or starts with a non-word character:
the word-boundary test `\b` after a word character. -/
def nonWordStart : Str → Bool
  | [] => true
  | c :: _ => !isWordU c

/-- Greedy parse of `\d+(?:\.\d+)?` at the head of the input: the decimal
value and the remaining input. -/
def numAt (l : Str) : Option (Dec × Str) :=
  let ds := l.takeWhile isDigitU
  if ds = [] then none
  else
    let restInt := l.drop ds.length
    match restInt with
    | '.' :: r2 =>
      let fs := r2.takeWhile isDigitU
      if fs = [] then some (⟨digitsVal ds, 1⟩, restInt)
      else some (⟨digitsVal ds * 10 ^ fs.length + digitsVal fs, 10 ^ fs.length⟩,
                 r2.drop fs.length)
    | _ => some (⟨digitsVal ds, 1⟩, restInt)

/-- Parse of `\d+` alone at the head of the input (the backtracking
alternative in which the optional fractional part is dropped). -/
def numIntAt (l : Str) : Option (Dec × Str) :=
  let ds := l.takeWhile isDigitU
  if ds = [] then none
  else some (⟨digitsVal ds, 1⟩, l.drop ds.length)

/-- Association-list lookup by decidable equality. -/
def lookupC : List (Char × Str) → Char → Option Str
  | [], _ => none
  | (k, v) :: rest, c => if k = c then some v else lookupC rest c

/-- Character translation through an association table, Python
`str.translate`: unmapped characters pass through, mapped characters are
replaced by the (possibly multi-character) image. -/
def tr (pairs : List (Char × Str)) (c : Char) : Str :=
  match lookupC pairs c with
  | some r => r
  | none => [c]

/-- Apply a character translation over a whole string. -/
def charExpand (pairs : List (Char × Str)) : Str → Str
  | [] => []
  | c :: rest => tr pairs c ++ charExpand pairs rest

/-- Python `s.replace(p₁p₂, rep)` for a two-character pattern:
left-to-right, non-overlapping. -/
def replace2 (p1 p2 : Char) (rep : Str) : Str → Str
  | [] => []
  | [c] => [c]
  | c1 :: c2 :: rest =>
    if c1 = p1 ∧ c2 = p2 then rep ++ replace2 p1 p2 rep rest
    else c1 :: replace2 p1 p2 rep (c2 :: rest)

/-- State machine for `re.sub(r"\s+", " ", ·)`: each maximal run of
whitespace becomes one ASCII space.  `prevSpace` records whether the
current position is inside a whitespace run. -/
def collapseWsAux (prevSpace : Bool) : Str → Str
  | [] => []
  | c :: rest =>
    if isPySpace c then
      if prevSpace then collapseWsAux true rest
      else ' ' :: collapseWsAux true rest
    else c :: collapseWsAux false rest

/-- `re.sub(r"\s+", " ", ·)`. -/
def collapseWs (l : Str) : Str := collapseWsAux false l

/-- Python `str.strip()`. -/
def pyStrip (l : Str) : Str :=
  ((l.dropWhile isPySpace).reverse.dropWhile isPySpace).reverse

/-- The shared shape of `normalize` in `nlp_extract.py` and
`disambiguator.py`: a full-width→half-width translation, `strip`, the two
(dead, since the translation has already eliminated `ｍ`/`Ｍ` pairs)
`ｍｍ`/`ＭＭ` replacements, and whitespace collapsing. -/
def normalizeGen (pairs : List (Char × Str)) (l : Str) : Str :=
  collapseWs (replace2 'Ｍ' 'Ｍ' ['m', 'm']
    (replace2 'ｍ' 'ｍ' ['m', 'm'] (pyStrip (charExpand pairs l))))

namespace NlpExtract

/-- `nlp_extract._Z2H_MAP`. -/
def z2hPairs : List (Char × Str) :=
  [('０', ['0']), ('１', ['1']), ('２', ['2']), ('３', ['3']), ('４', ['4']),
   ('５', ['5']), ('６', ['6']), ('７', ['7']), ('８', ['8']), ('９', ['9']),
   ('．', ['.']), ('，', [',']), ('、', [',']),
   ('－', ['-']), ('―', ['-']), ('‐', ['-']), ('–', ['-']), ('—', ['-']),
   ('〜', ['-']), ('～', ['-']),
   ('（', ['(']), ('）', [')']),
   ('　', [' ']),
   ('㎜', ['m', 'm']),
   ('ｍ', ['m']), ('Ｍ', ['m'])]

/-- `nlp_extract.z2h`. -/
def z2h (l : Str) : Str := charExpand z2hPairs l

/-- `nlp_extract.normalize`. -/
def normalize (l : Str) : Str := normalizeGen z2hPairs l

end NlpExtract

namespace Disambiguator

/-- `disambiguator._Z2H_MAP` (differs from `nlp_extract`: `～` goes to `~`,
`Ｍ` to `M`, and `〜`, `–`, `—` are not mapped). -/
def z2hPairs : List (Char × Str) :=
  [('０', ['0']), ('１', ['1']), ('２', ['2']), ('３', ['3']), ('４', ['4']),
   ('５', ['5']), ('６', ['6']), ('７', ['7']), ('８', ['8']), ('９', ['9']),
   ('．', ['.']), ('，', [',']), ('、', [',']),
   ('－', ['-']), ('―', ['-']), ('‐', ['-']),
   ('～', ['~']),
   ('（', ['(']), ('）', [')']),
   ('　', [' ']),
   ('㎜', ['m', 'm']),
   ('ｍ', ['m']), ('Ｍ', ['M'])]

/-- `disambiguator.normalize`. -/
def normalize (l : Str) : Str := normalizeGen z2hPairs l

end Disambiguator

namespace SearchCore

/-- The paren/space translation inside `search_core._canon_text`. -/
def canonParenPairs : List (Char × Str) :=
  [('（', ['(']), ('）', [')']), ('　', [' '])]

/-- The dash characters removed by `search_core._canon_text`. -/
def isCanonDash (c : Char) : Bool :=
  c = '‐' || c = '-' || c = '‒' || c = '–' || c = '—' || c = '―' || c = '−'

/-- Model of Python `str.lower` (ASCII case only; the Japanese text this
system compares has no case). -/
def lowerStr (l : Str) : Str := l.map Char.toLower

/-- `search_core._canon_text`: full-width parens/space to half-width, all
dash variants removed, all whitespace removed, lower-cased. -/
def canon_text (l : Str) : Str :=
  lowerStr (((charExpand canonParenPairs l).filter
    (fun c => !isCanonDash c)).filter (fun c => !isPySpace c))

end SearchCore

/-! ### Regex scans shared by the two depth parsers -/

/-- Match `\d+(?:\.\d+)?\s*SEP\s*\d+(?:\.\d+)?` at the head of the input;
`sep` is the separator class (`[-~]` in `search_core`, `-` in
`nlp_extract`).  Backtracking cannot rescue a failed greedy attempt here
(shrinking a digit run leaves a digit where the separator must be, dropping
a fraction leaves a dot), so the greedy parse is exact. -/
def matchRangeAt (sep : Char → Bool) (l : Str) : Option (Dec × Dec) :=
  match numAt l with
  | none => none
  | some (a, r1) =>
    match r1.dropWhile isPySpace with
    | c :: r3 =>
      if sep c then
        match numAt (r3.dropWhile isPySpace) with
        | some (b, _) => some (a, b)
        | none => none
      else none
    | [] => none

/-- `re.search` of the range pattern: try every start position left to
right. -/
def searchRange (sep : Char → Bool) : Str → Option (Dec × Dec)
  | [] => none
  | c :: rest =>
    match matchRangeAt sep (c :: rest) with
    | some ab => some ab
    | none => searchRange sep rest

/-- `re.search(r"^\s*~\s*(\d+(?:\.\d+)?)", ·)`: anchored open range. -/
def matchOpenAt (l : Str) : Option Dec :=
  match l.dropWhile isPySpace with
  | '~' :: r2 =>
    match numAt (r2.dropWhile isPySpace) with
    | some (b, _) => some b
    | none => none
  | _ => none

/-- A unit `mm` (case-insensitive), `ミリ` or `ﾐﾘ` followed by a word
boundary. -/
def unitBnd : Str → Bool
  | a :: b :: r =>
    (((a = 'm' || a = 'M') && (b = 'm' || b = 'M')) ||
      (a = 'ミ' && b = 'リ') || (a = 'ﾐ' && b = 'ﾘ')) && nonWordStart r
  | _ => false

/-- After a parsed number, `\s*(?:mm|ミリ|ﾐﾘ)?\b` succeeds iff the rest
starts with a non-word character (covers the empty unit, including the
case of leading whitespace, which itself is a boundary after a digit) or
with a unit followed by a boundary. -/
def bndOk (l : Str) : Bool := nonWordStart l || unitBnd l

/-- Match `(\d+(?:\.\d+)?)\s*(?:mm|ミリ|ﾐﾘ)?\b` at the head of the input.
The one observable backtracking case of the Python engine is modelled: when
the greedy parse (with fractional part) fails the boundary test, the
fractional part is dropped, leaving a dot — a non-word character — at the
boundary, so the integer part matches. -/
def matchSingleAt (l : Str) : Option Dec :=
  match numAt l with
  | none => none
  | some (v, rest) =>
    if bndOk rest then some v
    else
      match numIntAt l with
      | some (vi, restI) =>
        if restI ≠ rest ∧ bndOk restI then some vi else none
      | none => none

/-- `re.search` of the bare-number pattern. -/
def searchSingle : Str → Option Dec
  | [] => none
  | c :: rest =>
    match matchSingleAt (c :: rest) with
    | some v => some v
    | none => searchSingle rest

namespace SearchCore

/-- The character replacements at the head of
`search_core._parse_depth_range`. -/
def depthCellPairs : List (Char × Str) :=
  [('㎜', ['m', 'm']), ('〜', ['~']), ('～', ['~']),
   ('–', ['-']), ('—', ['-']), ('―', ['-']), ('‐', ['-']), ('−', ['-'])]

/-- `search_core._parse_depth_range`: an explicit range `a-b`/`a~b`
(bounds swapped when reversed), else an anchored open range `~b` as
`(0, b)`, else a bare number as a degenerate range, else `None`. -/
def parse_depth_range (cell : Str) : Option (Dec × Dec) :=
  if cell = [] then none
  else
    let t := charExpand depthCellPairs cell
    match searchRange (fun c => c = '-' || c = '~') t with
    | some (lo, hi) => if Dec.lt hi lo then some (hi, lo) else some (lo, hi)
    | none =>
      match matchOpenAt t with
      | some hi => some (0, hi)
      | none =>
        match searchSingle t with
        | some v => some (v, v)
        | none => none

/-- `search_core._range_overlap`. -/
def range_overlap (a b : Dec × Dec) : Bool :=
  !(Dec.lt a.2 b.1 || Dec.lt b.2 a.1)

/-- First `\d+(?:\.\d+)?` anywhere in the input (`_NUM_RE.search`). -/
def firstNum : Str → Option Dec
  | [] => none
  | c :: rest =>
    if isDigitU c then (numAt (c :: rest)).map Prod.fst
    else firstNum rest

/-- `search_core._to_mm_value`: unit/dash tidy-up, then the first number. -/
def to_mm_value (s : Str) : Option Dec :=
  let t := charExpand [('㎜', ['m', 'm'])] s
  let t := replace2 'Ｍ' 'Ｍ' ['m', 'm'] t
  let t := replace2 'ｍ' 'ｍ' ['m', 'm'] t
  let t := charExpand [('ｍ', ['m']), ('〜', ['-']), ('～', ['-']),
    ('–', ['-']), ('—', ['-']), ('―', ['-']), ('‐', ['-']), ('−', ['-'])] t
  firstNum t

end SearchCore

namespace NlpExtract

/-- The result of `nlp_extract.extract_depth`: a `('range', lo, hi)` or a
`('single', v)` tuple. -/
inductive DepthInfo
  | range (lo hi : Dec)
  | single (v : Dec)
deriving DecidableEq

/-- `(?![A-Za-z0-9])`: the rest does not start with an ASCII
alphanumeric. -/
def notAsciiAlnumStart : Str → Bool
  | [] => true
  | c :: _ => !c.isAlphanum

/-- A required unit `mm`/`ミリ`/`ﾐﾘ` followed by the negative lookahead
`(?![A-Za-z0-9])`. -/
def unitMMAfter : Str → Bool
  | a :: b :: r =>
    (((a = 'm' || a = 'M') && (b = 'm' || b = 'M')) ||
      (a = 'ミ' && b = 'リ') || (a = 'ﾐ' && b = 'ﾘ')) && notAsciiAlnumStart r
  | _ => false

/-- Match `_RE_DEPTH_SINGLE_MM` at the head: a number, optional spaces,
a required unit, the lookahead.  No backtracking case is observable: the
unit cannot start with a digit, a dot or a space. -/
def matchSingleMMAt (l : Str) : Option Dec :=
  match numAt l with
  | none => none
  | some (v, rest) =>
    if unitMMAfter (rest.dropWhile isPySpace) then some v else none

/-- `re.search` of `_RE_DEPTH_SINGLE_MM`. -/
def searchSingleMM : Str → Option Dec
  | [] => none
  | c :: rest =>
    match matchSingleMMAt (c :: rest) with
    | some v => some v
    | none => searchSingleMM rest

/-- `nlp_extract.extract_depth`: over normalized text, an explicit range
`a-b` (with optional unit, bounds swapped when reversed), else a single
number with a required unit.  There is no open-range case and a bare
number without unit yields `none`. -/
def extract_depth (text : Str) : Option DepthInfo :=
  let t := normalize text
  match searchRange (fun c => c = '-') t with
  | some (lo, hi) =>
    if Dec.lt hi lo then some (.range hi lo) else some (.range lo hi)
  | none =>
    match searchSingleMM t with
    | some v => some (.single v)
    | none => none

/-- Fuel-indexed scan for `re.finditer(r"\b(\d+(?:\.\d+)?)\b", ·)`:
non-overlapping matches left to right; `prevWord` tracks whether the
character before the current position is a word character (for the leading
`\b`).  The fuel is the input length; every recursive call shortens the
input, so the fuel never runs out. -/
def findNumsAux : ℕ → Bool → Str → List Dec
  | 0, _, _ => []
  | _ + 1, _, [] => []
  | fuel + 1, prevWord, c :: rest =>
    if isDigitU c && !prevWord then
      match numAt (c :: rest) with
      | some (v, r2) =>
        if nonWordStart r2 then v :: findNumsAux fuel true r2
        else
          match numIntAt (c :: rest) with
          | some (vi, rI) =>
            if rI ≠ r2 ∧ nonWordStart rI = true then vi :: findNumsAux fuel true rI
            else findNumsAux fuel (isWordU c) rest
          | none => findNumsAux fuel (isWordU c) rest
      | none => findNumsAux fuel (isWordU c) rest
    else findNumsAux fuel (isWordU c) rest

/-- Deduplication preserving first occurrence (`if v not in out`), with
Python's numeric equality. -/
def dedupD (seen : List Dec) : List Dec → List Dec
  | [] => []
  | x :: rest =>
    if Dec.memD x seen then dedupD seen rest else x :: dedupD (x :: seen) rest

/-- `nlp_extract._extract_depth_numbers`. -/
def extract_depth_numbers (text : Str) : List Dec :=
  let t := normalize text
  dedupD [] (findNumsAux t.length false t)

end NlpExtract

/-! ### Shared string utilities and the data model -/

/-- `sub` is a prefix of the second argument. -/
def isPre : Str → Str → Bool
  | [], _ => true
  | _ :: _, [] => false
  | a :: as, b :: bs => a = b && isPre as bs

/-- Python's `in` on strings: substring containment. -/
def isSub (sub : Str) : Str → Bool
  | [] => isPre sub []
  | c :: rest => isPre sub (c :: rest) || isSub sub rest

/-- Python `str.upper` (ASCII case only, as for `lowerStr`). -/
def pyUpper (l : Str) : Str := l.map Char.toUpper

/-- Strict lexicographic order on strings by code point, Python `str <`. -/
def strLt : Str → Str → Bool
  | [], [] => false
  | [], _ :: _ => true
  | _ :: _, [] => false
  | a :: as, b :: bs => a < b || (a = b && strLt as bs)

/-- Stable insertion: place `x` before the first element strictly greater
than it (so equal keys keep their original relative order). -/
def insertSorted (lt : α → α → Bool) (x : α) : List α → List α
  | [] => [x]
  | y :: rest => if lt y x then y :: insertSorted lt x rest else x :: y :: rest

/-- Stable sort by a strict comparison, the model of Python's stable
`list.sort`/`sorted`. -/
def sortStable (lt : α → α → Bool) (l : List α) : List α :=
  l.foldr (insertSorted lt) []

/- The dataset column names, as strings (dict keys in the source). -/
namespace Col

def «作業ID» : Str := ['作', '業', 'I', 'D']

def «作業名» : Str := ['作', '業', '名']

def «下地の状況» : Str := ['下', '地', 'の', '状', '況']

def «処理する深さ・厚さ» : Str := ['処', '理', 'す', 'る', '深', 'さ', '・', '厚', 'さ']

def «工程数» : Str := ['工', '程', '数']

def «機械カテゴリー» : Str := ['機', '械', 'カ', 'テ', 'ゴ', 'リ', 'ー']

def «ライナックス機種名» : Str := ['ラ', 'イ', 'ナ', 'ッ', 'ク', 'ス', '機', '種', '名']

def «使用カッター名» : Str := ['使', '用', 'カ', 'ッ', 'タ', 'ー', '名']

def «作業効率評価» : Str := ['作', '業', '効', '率', '評', '価']

end Col

/-- One dataset row (a CSV dict in the source).  `«作業ID»` is `Option`
because the work-id key may be absent from a row dict, which the code
distinguishes from the empty string.  The three underscore-annotations
added by the pipeline are modelled as fields whose defaults represent the
absent key (`formatters.py` treats an absent flag like a falsy one). -/
structure Row where
  «作業ID» : Option Str := none
  «作業名» : Str := []
  «下地の状況» : Str := []
  «処理する深さ・厚さ» : Str := []
  «工程数» : Str := []
  «機械カテゴリー» : Str := []
  «ライナックス機種名» : Str := []
  «使用カッター名» : Str := []
  «作業効率評価» : Str := []
  stage : Option Str := none
  hit_stage : Bool := false
  pair_candidate : Bool := false
deriving DecidableEq

/-- A pending substrate clarification
(`filters["_needs_choice"]["下地の状況"]`). -/
structure Pending where
  term : Str
  candidates : List Str
deriving DecidableEq

/-- The structured query produced by `extract_query` (a Python dict):
string-keyed multi-value fields, the two depth keys, and the optional
`_needs_choice` sub-dict. -/
structure Query where
  fields : List (Str × List Str) := []
  depth_range : Option (Dec × Dec) := none
  depth_value : Option Dec := none
  needs_choice : Option (List (Str × Pending)) := none
deriving DecidableEq

/-- `q.get(k, [])` on the multi-value fields. -/
def getF : List (Str × List Str) → Str → List Str
  | [], _ => []
  | (k', v) :: rest, k => if k' = k then v else getF rest k

/-- `k in q` on the multi-value fields. -/
def hasKeyF : List (Str × List Str) → Str → Bool
  | [], _ => false
  | (k', _) :: rest, k => if k' = k then true else hasKeyF rest k

/-- `q[k] = v` on the multi-value fields (replace or append). -/
def setF : List (Str × List Str) → Str → List Str → List (Str × List Str)
  | [], k, v => [(k, v)]
  | (k', v') :: rest, k, v =>
    if k' = k then (k, v) :: rest else (k', v') :: setF rest k v

namespace SearchCore

/-- `re.split(r"[、,]", ·)`: split on either comma, keeping empty parts. -/
def splitDelimsAux (acc : Str) : Str → List Str
  | [] => [acc.reverse]
  | c :: rest =>
    if c = '、' || c = ',' then acc.reverse :: splitDelimsAux [] rest
    else splitDelimsAux (c :: acc) rest

/-- `re.split(r"[、,]", ·)`. -/
def splitDelims (l : Str) : List Str := splitDelimsAux [] l

/-- `search_core._cell_contains_any`: empty wants always pass; otherwise
some want, canonicalized, equals the canonicalized whole cell or one of
its comma-split parts. -/
def cell_contains_any (row_val : Str) (wants : List Str) : Bool :=
  if wants = [] then true
  else
    let rv_norm := canon_text row_val
    let parts0 := (splitDelims row_val).map canon_text
    let parts := if parts0 = [] then [rv_norm] else parts0
    wants.any (fun w =>
      let cw := canon_text w
      decide (cw = rv_norm) || decide (cw ∈ parts))

/-- `search_core._depth_match_row`: range constraint needs overlap, point
constraint needs containment, legacy string constraints need one contained
value; no constraint passes. -/
def depth_match_row (row_depth_cell : Str) (depth_range : Option (Dec × Dec))
    (depth_value : Option Dec) (wants_depth_strings : List Str) : Bool :=
  let rng := parse_depth_range row_depth_cell
  match depth_range with
  | some dr =>
    match rng with
    | none => false
    | some r => range_overlap r dr
  | none =>
  match depth_value with
  | some v =>
    match rng with
    | none => false
    | some (lo, hi) => Dec.le lo v && Dec.le v hi
  | none =>
  if wants_depth_strings ≠ [] then
    match rng with
    | none => false
    | some (lo, hi) =>
      wants_depth_strings.any (fun s =>
        match to_mm_value s with
        | none => false
        | some v => Dec.le lo v && Dec.le v hi)
  else true

/-- `search_core._row_match`: attribute checks combined with AND, in the
source's order, then the depth check, then the efficiency check. -/
def row_match (row : Row) (q : Query) : Bool :=
  cell_contains_any row.«下地の状況» (getF q.fields Col.«下地の状況») &&
  cell_contains_any row.«作業名» (getF q.fields Col.«作業名») &&
  cell_contains_any row.«機械カテゴリー» (getF q.fields Col.«機械カテゴリー») &&
  cell_contains_any row.«ライナックス機種名» (getF q.fields Col.«ライナックス機種名») &&
  cell_contains_any row.«使用カッター名» (getF q.fields Col.«使用カッター名») &&
  cell_contains_any row.«工程数» (getF q.fields Col.«工程数») &&
  depth_match_row row.«処理する深さ・厚さ» q.depth_range q.depth_value
    (getF q.fields Col.«処理する深さ・厚さ») &&
  cell_contains_any row.«作業効率評価» (getF q.fields Col.«作業効率評価»)

/-- `search_core._normalize_stage`. -/
def normalize_stage (raw : Str) : Option Str :=
  if raw = [] then none
  else
    let s := pyUpper (pyStrip raw)
    if isSub ['単', '一'] s || isSub ['S', 'I', 'N', 'G', 'L', 'E'] s then
      some ['S', 'I', 'N', 'G', 'L', 'E']
    else if isPre ['A'] s || isSub ['一', '次'] s then some ['A']
    else if isPre ['B'] s || isSub ['二', '次'] s then some ['B']
    else if isSub ['一', '次', '工', '程'] s then some ['A']
    else if isSub ['二', '次', '工', '程'] s then some ['B']
    else none

/-- `search_core._stage_hit_flag_for_row`. -/
def stage_hit_flag_for_row (row_stage_norm : Option Str) (q : Query) : Bool :=
  let wants := getF q.fields Col.«工程数»
  if wants = [] then false
  else
    let want_norms := wants.foldl (fun acc w =>
      let acc := match normalize_stage w with
        | some n => if n ∈ acc then acc else acc ++ [n]
        | none => acc
      let acc := if isSub ['一', '次'] w then
          (if ['A'] ∈ acc then acc else acc ++ [['A']]) else acc
      let acc := if isSub ['二', '次'] w then
          (if ['B'] ∈ acc then acc else acc ++ [['B']]) else acc
      if isSub ['単', '一'] w then
        (if ['S', 'I', 'N', 'G', 'L', 'E'] ∈ acc then acc
         else acc ++ [['S', 'I', 'N', 'G', 'L', 'E']]) else acc) []
    if want_norms = [] then false
    else
      match row_stage_norm with
      | some s => decide (s ∈ want_norms)
      | none => false

/-- `search_core._sort_key`: single-stage rows first, then efficiency. -/
def sort_key (row : Row) : ℕ × ℕ :=
  let k_eng := if isSub ['単', '一'] row.«工程数» then 0 else 1
  let eff := charExpand [('〇', ['○'])] row.«作業効率評価»
  let k_eff := if eff = ['◎'] then 0 else if eff = ['○'] then 1
    else if eff = ['△'] then 2 else 9
  (k_eng, k_eff)

/-- Strict lexicographic order on `ℕ × ℕ` (Python tuple `<`). -/
def natPairLt (a b : ℕ × ℕ) : Bool :=
  a.1 < b.1 || (a.1 = b.1 && a.2 < b.2)

/-- `search_core.EVAL_ORDER` lookup with default 9. -/
def eval_order (s : Str) : ℕ :=
  if s = ['◎'] then 0 else if s = ['○'] then 1 else if s = ['〇'] then 1
  else if s = ['△'] then 2 else 9

/-- `search_core.sort_by_eval`. -/
def sort_by_eval (rows : List Row) : List Row :=
  sortStable (fun a b => eval_order a.«作業効率評価» < eval_order b.«作業効率評価») rows

/-- `search_core.run_query_system` on a dict query (the string-query branch
delegates to an external adapter and is outside this model).  The CSV rows
are a parameter: the loader is an external collaborator. -/
def run_query_system (rows : List Row) (q : Query) : List Row :=
  let hits := (rows.filter (fun r => row_match r q)).map (fun r =>
    let stage_norm := normalize_stage r.«工程数»
    { r with stage := stage_norm,
             hit_stage := stage_hit_flag_for_row stage_norm q })
  sortStable (fun a b => natPairLt (sort_key a) (sort_key b)) hits

/-- `search_core._is_query_empty`. -/
def is_query_empty (q : Query) : Bool :=
  let keys_multi := [Col.«下地の状況», Col.«作業名», Col.«機械カテゴリー»,
    Col.«ライナックス機種名», Col.«使用カッター名», Col.«工程数»,
    Col.«作業効率評価», Col.«処理する深さ・厚さ»]
  if keys_multi.any (fun k => !(getF q.fields k).isEmpty) then false
  else if q.depth_value.isSome || q.depth_range.isSome then false
  else true

/-- `search_core._remove_depth`. -/
def remove_depth (q : Query) : Query :=
  { q with depth_value := none, depth_range := none,
           fields :=
             if hasKeyF q.fields Col.«処理する深さ・厚さ» then
               setF q.fields Col.«処理する深さ・厚さ» []
             else q.fields }

/-- Python `min` over a non-empty list: keep the first strictly smallest. -/
def listMinD (x : Dec) (l : List Dec) : Dec :=
  l.foldl (fun acc y => if Dec.lt y acc then y else acc) x

/-- Python `max` over a non-empty list: keep the first strictly largest. -/
def listMaxD (x : Dec) (l : List Dec) : Dec :=
  l.foldl (fun acc y => if Dec.lt acc y then y else acc) x

/-- `search_core._estimate_allowed_range_without_depth`: depth range spanned
by the rows matching the depth-stripped query, falling back to the whole
dataset when that set is empty. -/
def estimate_allowed_range_without_depth (rows : List Row) (q : Query) :
    Option (Dec × Dec) :=
  let base_rows := run_query_system rows (remove_depth q)
  let base_rows := if base_rows = [] then rows else base_rows
  let ranges := base_rows.filterMap (fun r => parse_depth_range r.«処理する深さ・厚さ»)
  match ranges.map Prod.fst, ranges.map Prod.snd with
  | l0 :: ls, h0 :: hs => some (listMinD l0 ls, listMaxD h0 hs)
  | _, _ => none

/-- `search_core.clamp_depth`. -/
def clamp_depth (desired min_mm max_mm : Dec) : Dec :=
  Dec.maxD (Dec.minD desired max_mm) min_mm

/-- Normalization of the `_normalize_depth_str` translate table. -/
def depthStrPairs : List (Char × Str) :=
  [('－', ['-']), ('０', ['0']), ('１', ['1']), ('２', ['2']), ('３', ['3']),
   ('４', ['4']), ('５', ['5']), ('６', ['6']), ('７', ['7']), ('８', ['8']),
   ('９', ['9']), ('．', ['.']), ('〜', ['~']), ('～', ['~'])]

/-- `re.sub(r"^(処理する深さ・厚さ|処理深さ|厚さ)\s*[:：]?\s*", "", ·)`:
drop the first matching label alternative, then spaces, an optional colon,
and spaces. -/
def stripDepthLabelHead (l : Str) : Str :=
  let tryAfter (r : Str) : Str :=
    let r := r.dropWhile isPySpace
    let r := match r with
      | ':' :: t => t
      | '：' :: t => t
      | r' => r'
    r.dropWhile isPySpace
  if isPre Col.«処理する深さ・厚さ» l then tryAfter (l.drop 9)
  else if isPre ['処', '理', '深', 'さ'] l then tryAfter (l.drop 4)
  else if isPre ['厚', 'さ'] l then tryAfter (l.drop 2)
  else l

/-- `re.fullmatch(r"\d+(?:\.\d+)?", ·)`. -/
def isNumStr (l : Str) : Bool :=
  match numAt l with
  | some (_, rest) => rest = []
  | none => false

/-- `re.sub(r"(?<=\d)\s*mm$", "mm", ·, flags=re.I)`: normalize a trailing
unit after a digit. -/
def fixMmTail (l : Str) : Str :=
  match l.reverse with
  | m2 :: m1 :: rest =>
    if (m2 = 'm' || m2 = 'M') && (m1 = 'm' || m1 = 'M') then
      let r' := rest.dropWhile isPySpace
      match r' with
      | d :: _ => if isDigitU d then r'.reverse ++ ['m', 'm'] else l
      | [] => l
    else l
  | _ => l

/-- `search_core._normalize_depth_str`. -/
def normalize_depth_str (v : Str) : Option Str :=
  if v = [] then none
  else
    let s := pyStrip v
    let s := charExpand depthStrPairs s
    let s := s.filter (fun c => c ≠ ' ')
    let s := stripDepthLabelHead s
    let s := charExpand [('~', ['-']), ('–', ['-'])] s
    let s := if isNumStr s then s ++ ['m', 'm'] else s
    some (fixMmTail s)

/-- The `_sort_depth_strings` key: the anchored match of
`(\d+(?:\.\d+)?)(?:-(\d+(?:\.\d+)?))?`, as the pair `(lo, hi)` (the source
uses `(lo, hi - lo)`; the comparator below compares the differences by
cross-addition, avoiding subtraction). -/
def depth_sort_key (x : Str) : Dec × Dec :=
  match numAt x with
  | some (lo, rest) =>
    match rest with
    | '-' :: r2 =>
      match numAt r2 with
      | some (hi, _) => (lo, hi)
      | none => (lo, lo)
    | _ => (lo, lo)
  | none => (⟨999999, 1⟩, ⟨999999, 1⟩)

/-- Exact addition on `Dec` (used only to compare differences). -/
def addD (a b : Dec) : Dec := ⟨a.num * b.den + b.num * a.den, a.den * b.den⟩

/-- Strict comparison of the keys `(lo, hi - lo)`:
`hi₁ - lo₁ < hi₂ - lo₂ ↔ hi₁ + lo₂ < hi₂ + lo₁`. -/
def depthKeyLt (k1 k2 : Dec × Dec) : Bool :=
  Dec.lt k1.1 k2.1 ||
  (Dec.beq k1.1 k2.1 && Dec.lt (addD k1.2 k2.1) (addD k2.2 k1.1))

/-- `search_core._sort_depth_strings`. -/
def sort_depth_strings (vals : List Str) : List Str :=
  sortStable (fun a b => depthKeyLt (depth_sort_key a) (depth_sort_key b)) vals

/-- `search_core._collect_depth_candidates_from_rows`.  The source
accumulates into a Python set whose iteration order is unspecified; the
model keeps first-occurrence order going into the stable sort.  The claims
consume only the length bound and membership, which are order-independent
for distinct values. -/
def collect_depth_candidates_from_rows (rows : List Row) (limit : ℕ) : List Str :=
  let vals := rows.foldl (fun acc r =>
    match normalize_depth_str r.«処理する深さ・厚さ» with
    | some v => if v = [] then acc else if v ∈ acc then acc else acc ++ [v]
    | none => acc) []
  (sort_depth_strings vals).take limit

/-- The outcome record of `search_core.run_query` (the human-readable
`message` strings are not modelled; no claim mentions them). -/
structure SearchOutcome where
  status : String
  singles : Option (List Row) := none
  pairs : Option (List Row) := none
  suggest_depth : Option Dec := none
  total_hits : Option ℕ := none
  raw_hits : Option (List Row) := none
  depth_candidates : Option (List Str) := none
deriving DecidableEq

/-- Step 3 of `search_core.run_query` (the early-return `range_out`
branch), as an `Option` that is `none` exactly when the source falls
through to steps 4–6: a point depth constraint whose value lies outside the
estimated allowed range yields the `range_out` outcome built from the
depth-stripped hits. -/
def range_out_check (rows : List Row) (q : Query) : Option SearchOutcome :=
  match q.depth_value with
  | none => none
  | some depth_value =>
    match estimate_allowed_range_without_depth rows q with
    | none => none
    | some (min_mm, max_mm) =>
      if Dec.le min_mm depth_value && Dec.le depth_value max_mm then none
      else
        let hits_wo_depth := run_query_system rows (remove_depth q)
        some { status := "range_out",
               suggest_depth := some (clamp_depth depth_value min_mm max_mm),
               total_hits := some hits_wo_depth.length,
               raw_hits := some hits_wo_depth,
               depth_candidates :=
                 some (collect_depth_candidates_from_rows hits_wo_depth 8) }

/-- `search_core.run_query`: the high-level outcome classification. -/
def run_query (rows : List Row) (q : Query) : SearchOutcome :=
  if is_query_empty q then
    { status := "invalid_conditions", total_hits := some 0 }
  else
    let hits := run_query_system rows q
    match range_out_check rows q with
    | some o => o
    | none =>
      if hits = [] then { status := "no_results", total_hits := some 0 }
      else if 10 ≤ hits.length then
        { status := "need_refine", total_hits := some hits.length,
          raw_hits := some hits,
          depth_candidates := some (collect_depth_candidates_from_rows hits 8) }
      else
        { status := "ok", singles := some (sort_by_eval hits), pairs := some [],
          total_hits := some hits.length,
          depth_candidates := some (collect_depth_candidates_from_rows hits 8) }

end SearchCore

/-! ### `nlp_extract.extract_query` and its helpers.

The compiled alias index (built from `synonyms.yaml` merged with the
built-in table) and the dataset vocabulary (built from the CSV) are data,
not code: both are parameters, taken at the exact boundary of
`_compile_alias_index()` / `_labels_by_col()`. -/

namespace NlpExtract

/-- `nlp_extract._JA_TRAILING_PARTICLES`. -/
def isTrailingParticle (c : Char) : Bool :=
  c = 'を' || c = 'に' || c = 'は' || c = 'が' || c = 'へ' ||
  c = 'と' || c = 'で' || c = 'も' || c = 'や'

/-- `nlp_extract._strip_trailing_particle`. -/
def strip_trailing_particle (s : Str) : Str :=
  let s := normalize s
  match s.reverse with
  | c :: restRev => if isTrailingParticle c then restRev.reverse else s
  | [] => s

/-- Token class of one character for `_tokenize_ja`:
1 = `[A-Za-z0-9.\-+%]`, 2 = kana/kanji, 0 = whitespace (skipped),
3 = any other single character. -/
def tokClass (c : Char) : ℕ :=
  if c.isAlphanum || c = '.' || c = '-' || c = '+' || c = '%' then 1
  else if ('぀' ≤ c && c ≤ 'ヿ') || ('一' ≤ c && c ≤ '鿿') then 2
  else if isPySpace c then 0
  else 3

/-- Scanner for `re.findall(r"[A-Za-z0-9\.\-\+%]+|[぀-ヿ一-鿿]+|[^\s]", ·)`:
maximal runs of class 1 or class 2, single tokens of class 3, whitespace
skipped. -/
def tokenizeAux (cls : ℕ) (acc : Str) : Str → List Str
  | [] => if acc = [] then [] else [acc.reverse]
  | c :: rest =>
    let k := tokClass c
    if (k = 1 || k = 2) && k = cls then tokenizeAux cls (c :: acc) rest
    else
      let flushed := if acc = [] then [] else [acc.reverse]
      if k = 0 then flushed ++ tokenizeAux 0 [] rest
      else if k = 3 then flushed ++ ([c] :: tokenizeAux 0 [] rest)
      else flushed ++ tokenizeAux k [c] rest

/-- `nlp_extract._tokenize_ja`. -/
def tokenize_ja (text : Str) : List Str := tokenizeAux 0 [] (normalize text)

/-- The compiled alias index `_compile_alias_index()`:
per column, alias key → canonical labels. -/
abbrev AliasIdx := List (Str × List (Str × List Str))

/-- The dataset vocabulary `_labels_by_col()`: per column, the distinct
split cell values. -/
abbrev LabelsByCol := List (Str × List Str)

/-- Append one `(column, canonical)` candidate under an alias key,
preserving insertion order (`hits.setdefault(ak, []).append(...)`). -/
def addHit (m : List (Str × List (Str × Str))) (ak : Str) (p : Str × Str) :
    List (Str × List (Str × Str)) :=
  match m with
  | [] => [(ak, [p])]
  | (k, ps) :: rest =>
    if k = ak then (k, ps ++ [p]) :: rest else (k, ps) :: addHit rest ak p

/-- `nlp_extract._gather_alias_hits_all_cols`: every alias key found (as a
substring) in the normalized text or its particle-stripped variant, with
all its `(column, canonical)` candidates. -/
def gather_alias_hits_all_cols (idxAll : AliasIdx) (text : Str) :
    List (Str × List (Str × Str)) :=
  let t := normalize text
  let t2 := normalize (strip_trailing_particle text)
  idxAll.foldl (fun hits colIdx =>
    colIdx.2.foldl (fun hits entry =>
      let ak := normalize entry.1
      if ak ≠ [] ∧ (isSub ak t || isSub ak t2) then
        entry.2.foldl (fun hits canonical => addHit hits ak (colIdx.1, canonical)) hits
      else hits) hits) []

/-- `nlp_extract.COLUMN_PRIORITY`. -/
def COLUMN_PRIORITY : List Str :=
  [Col.«作業名», Col.«下地の状況», Col.«ライナックス機種名», Col.«機械カテゴリー»,
   Col.«使用カッター名», Col.«工程数», Col.«作業効率評価»]

/-- `_PRIO.get(col, 9999)`. -/
def prio (col : Str) : ℕ :=
  (COLUMN_PRIORITY.findIdx? (fun c => c = col)).getD 9999

/-- `nlp_extract._canonicalize_label`: exact dataset label, else the
longest dataset label related by substring containment, else unchanged. -/
def canonicalize_label (labelsByCol : LabelsByCol) (col : Str) (label : Str) : Str :=
  let labels := getF labelsByCol col
  if label ∈ labels then label
  else
    let cand := labels.filter (fun lb => isSub label lb || isSub lb label)
    match sortStable (fun a b => b.length < a.length) cand with
    | c0 :: _ => c0
    | [] => label

/-- `nlp_extract.CSV_COMPLETION_MODE` (the module constant). -/
def CSV_COMPLETION_MODE : String := "literal"

/-- `nlp_extract._csv_only_match_labels`.  In the (default) `"literal"`
mode the `consumed` alias set is not consulted; it is used only by
`"partial"` mode. -/
def csv_only_match_labels (labelsByCol : LabelsByCol) (col : Str)
    (tokens : List Str) (consumed : List Str) : List Str :=
  if CSV_COMPLETION_MODE = "off" then []
  else
    let labels := getF labelsByCol col
    if labels = [] then []
    else if CSV_COMPLETION_MODE = "literal" then
      let tset := tokens.map (fun tok => normalize (strip_trailing_particle tok))
      labels.filter (fun lb => decide (normalize lb ∈ tset))
    else
      let t_join := List.intercalate [' '] tokens
      let hits := (sortStable (fun a b => b.length < a.length) labels).foldl
        (fun hits lb =>
          if lb ≠ [] ∧ isSub lb t_join = true then
            (if lb ∈ hits then hits else hits ++ [lb])
          else hits) []
      if hits ≠ [] then hits
      else
        tokens.foldl (fun hits tok =>
          let k := normalize (strip_trailing_particle tok)
          if k ∈ consumed then hits
          else labels.foldl (fun hits lb =>
            let lb_n := normalize lb
            if isPre k lb_n || (decide (k ≠ []) && isSub k lb_n) then
              (if lb ∈ hits then hits else hits ++ [lb])
            else hits) hits) hits

/-- `nlp_extract._AMBIG_SUBSTRATE` (insertion order preserved). -/
def AMBIG_SUBSTRATE : List (Str × List Str) :=
  [(['ア', 'ク', 'リ', 'ル'],
    [['防', '塵', '塗', '料', '（', 'ア', 'ク', 'リ', 'ル', '）'],
     ['防', '塵', '塗', '料', '（', 'ア', 'ク', 'リ', 'ル', '塗', 'り', '重', 'ね', '）']]),
   (['エ', 'ポ', 'キ', 'シ'],
    [['防', '塵', '塗', '料', '（', 'エ', 'ポ', 'キ', 'シ', '）'],
     ['防', '塵', '塗', '料', '（', 'エ', 'ポ', 'キ', 'シ', '塗', 'り', '重', 'ね', '）'],
     ['厚', '膜', '塗', '料', '（', 'エ', 'ポ', 'キ', 'シ', '）']]),
   (['ウ', 'レ', 'タ', 'ン'],
    [['厚', '膜', '塗', '料', '（', 'ウ', 'レ', 'タ', 'ン', '）'],
     ['厚', '膜', '塗', '料', '（', '水', '性', '硬', '質', 'ウ', 'レ', 'タ', 'ン', '）']])]

/-- First ambiguous substrate term contained in the normalized text. -/
def resolveAmbigAux : List (Str × List Str) → Str → Option Pending
  | [], _ => none
  | (term, cands) :: rest, t =>
    if isSub term t then some ⟨term, cands⟩ else resolveAmbigAux rest t

/-- `nlp_extract._resolve_ambiguous_substrate`: with
`SUBSTRATE_FORCE_CHOICE = True` (the module constant) every detected term
yields a pending choice and no resolved labels; the resolved-labels
component is therefore always empty. -/
def resolve_ambiguous_substrate (text : Str) : List Str × Option Pending :=
  ([], resolveAmbigAux AMBIG_SUBSTRATE (normalize text))

/-- Strip factors of ten shared by numerator and denominator (fuel-indexed;
the denominator bounds the number of steps). -/
def reduce10 : ℕ → ℕ → ℕ → ℕ × ℕ
  | 0, n, d => (n, d)
  | f + 1, n, d =>
    if d % 10 = 0 && n % 10 = 0 then reduce10 f (n / 10) (d / 10) else (n, d)

/-- Model of Python `f"{v:g}"` on an exact decimal value: trailing zeros
dropped, plain (non-scientific) notation — exact for the magnitudes this
dataset holds. -/
def decToG (x : Dec) : Str :=
  let nd := reduce10 x.den x.num x.den
  let n := nd.1
  let d := nd.2
  if d ≤ 1 then Nat.toDigits 10 n
  else
    let k := (Nat.toDigits 10 d).length - 1
    let ds := Nat.toDigits 10 n
    if ds.length ≤ k then '0' :: '.' :: (List.replicate (k - ds.length) '0' ++ ds)
    else ds.take (ds.length - k) ++ '.' :: ds.drop (ds.length - k)

/-- The body of the inner candidate loop of `extract_query`'s alias
assignment: a candidate is applied only when its column is the winning
column and its raw label is not in the per-alias `added` set. -/
def aliasInner (labelsByCol : LabelsByCol) (win_col : Str)
    (st2 : List (Str × List Str) × List Str) (cl : Str × Str) :
    List (Str × List Str) × List Str :=
  let fs2 := st2.1
  let added := st2.2
  if cl.1 = win_col ∧ cl.2 ∉ added then
    let label2 := canonicalize_label labelsByCol cl.1 cl.2
    let fs2 := if label2 ∈ getF fs2 cl.1 then fs2
      else setF fs2 cl.1 (getF fs2 cl.1 ++ [label2])
    (fs2, added ++ [cl.2])
  else (fs2, added)

/-- One step of the alias-assignment loop of `extract_query`: sort the
candidates by column priority (stable), take the winning column, honour the
substrate suppression, and append the winner's canonicalized labels that
are not yet present; the alias is recorded as consumed. -/
def aliasStep (labelsByCol : LabelsByCol) (needsPending : Bool)
    (resolvedSub : List Str)
    (st : List (Str × List Str) × List Str) (akcl : Str × List (Str × Str)) :
    List (Str × List Str) × List Str :=
  let fs := st.1
  let consumed := st.2
  let ak := akcl.1
  let sortedC := sortStable (fun a b => prio a.1 < prio b.1) akcl.2
  match sortedC with
  | [] => (fs, consumed ++ [ak])
  | (win_col, _) :: _ =>
    if win_col = Col.«下地の状況» ∧ (needsPending ∨ resolvedSub ≠ []) then
      (fs, consumed ++ [ak])
    else
      let fs := (sortedC.foldl (aliasInner labelsByCol win_col) (fs, [])).1
      (fs, consumed ++ [ak])

/-- `nlp_extract.extract_query` (the accompanying human-readable `explain`
string is not modelled; no claim mentions it). -/
def extract_query (aliasIdx : AliasIdx) (labelsByCol : LabelsByCol)
    (text : Str) : Query :=
  let tokens := tokenize_ja text
  let depth_info := extract_depth text
  let depths : Option (Dec × Dec) × Option Dec × List Str :=
    match depth_info with
    | some (.range lo hi) => (some (lo, hi), none, [decToG lo, decToG hi])
    | some (.single v) => (none, some v, [decToG v])
    | none => (none, none, (extract_depth_numbers text).map decToG)
  let fields0 : List (Str × List Str) :=
    [(Col.«作業名», []), (Col.«下地の状況», []),
     (Col.«処理する深さ・厚さ», depths.2.2),
     (Col.«工程数», []), (Col.«機械カテゴリー», []),
     (Col.«ライナックス機種名», []), (Col.«使用カッター名», []),
     (Col.«作業効率評価», [])]
  let subst := resolve_ambiguous_substrate text
  let resolved_sub := subst.1
  let fields1 := resolved_sub.foldl (fun fs lab =>
    if lab ∈ getF fs Col.«下地の状況» then fs
    else setF fs Col.«下地の状況» (getF fs Col.«下地の状況» ++ [lab])) fields0
  let needs : Option (List (Str × Pending)) :=
    match subst.2 with
    | some p => some [(Col.«下地の状況», p)]
    | none => none
  let alias_hits := gather_alias_hits_all_cols aliasIdx text
  let assigned := alias_hits.foldl
    (aliasStep labelsByCol needs.isSome resolved_sub) (fields1, [])
  let fields2 := assigned.1
  let consumed := assigned.2
  let compCols := [Col.«作業名», Col.«下地の状況», Col.«工程数», Col.«機械カテゴリー»,
    Col.«ライナックス機種名», Col.«使用カッター名», Col.«作業効率評価»]
  let fields3 := compCols.foldl (fun fs col =>
    if getF fs col ≠ [] then fs
    else (csv_only_match_labels labelsByCol col tokens consumed).foldl (fun fs h =>
      let h2 := canonicalize_label labelsByCol col h
      if h2 ∈ getF fs col then fs
      else setF fs col (getF fs col ++ [h2])) fs) fields2
  { fields := fields3, depth_range := depths.1, depth_value := depths.2.1,
    needs_choice := needs }

end NlpExtract

namespace Disambiguator

/-- One entry of a clarification's `choices` list (a dict that may lack
`id` or `label`). -/
structure Choice where
  id : Option Str := none
  label : Option Str := none
deriving DecidableEq

/-- A clarification as produced by `disambiguator.detect` /
consumed by `apply_choice_to_query`. -/
structure Clarify where
  trigger : Str := []
  column : Option Str := none
  choices : List Choice := []
deriving DecidableEq

/-- Python `str.lower` (ASCII case only). -/
def pyLower (l : Str) : Str := l.map Char.toLower

/-- Dict assignment on an association list: replace or append
(`id2label[str(cid)] = lab`, later writes win). -/
def setP : List (Str × Str) → Str → Str → List (Str × Str)
  | [], k, v => [(k, v)]
  | (k', v') :: rest, k, v =>
    if k' = k then (k, v) :: rest else (k', v') :: setP rest k v

/-- `id2label.get(sx)` lookup. -/
def getP : List (Str × Str) → Str → Option Str
  | [], _ => none
  | (k', v) :: rest, k => if k' = k then some v else getP rest k

/-- `dict.pop(col, None)` on the pending-clarification map. -/
def removeKeyP (m : List (Str × Pending)) (k : Str) : List (Str × Pending) :=
  m.filter (fun p => p.1 ≠ k)

/-- `lab.split("=", 1)` when `"=" in lab`. -/
def splitEqAux (acc : Str) : Str → Option (Str × Str)
  | [] => none
  | '=' :: rest => some (acc.reverse, rest)
  | c :: rest => splitEqAux (c :: acc) rest

/-- First `=`-split of a label. -/
def splitEq (l : Str) : Option (Str × Str) := splitEqAux [] l

/-- `_append` inside `apply_choice_to_query`: copy the existing list and
append the values not already present. -/
def appendVals (q : Query) (qkey : Str) (vals : List Str) : Query :=
  if vals = [] then q
  else
    let existed := getF q.fields qkey
    let existed := vals.foldl (fun ex v => if v ∈ ex then ex else ex ++ [v]) existed
    { q with fields := setF q.fields qkey existed }

/-- The `id→label` map and the full label list of a clarification. -/
def choiceMaps (chs : List Choice) : List (Str × Str) × List Str :=
  chs.foldl (fun st c =>
    match c.label with
    | none => st
    | some lab =>
      let alls := st.2 ++ [lab]
      match c.id with
      | some cid => (setP st.1 cid lab, alls)
      | none => (st.1, alls)) ([], [])

/-- The resolved label list of `apply_choice_to_query`: `all` takes every
candidate, `unknown` takes none, otherwise indices are expanded through the
`id→label` map and literal entries pass through; empties are dropped. -/
def resolvedLabels (chosen : List Str) (chs : List Choice) : List Str :=
  let maps := choiceMaps chs
  let normalized := (chosen.map (fun x => pyLower (pyStrip x))).filter (fun s => s ≠ [])
  if ['a', 'l', 'l'] ∈ normalized then maps.2
  else if ['u', 'n', 'k', 'n', 'o', 'w', 'n'] ∈ normalized then []
  else
    (((chosen.map pyStrip).filter (fun sx => sx ≠ [])).map
      (fun sx => (getP maps.1 sx).getD sx)).filter (fun s => s ≠ [])

/-- The `_needs_choice` cleanup of `apply_choice_to_query`: remove the
given column's pending entry, dropping the whole map when it empties;
a query without the key is untouched. -/
def cleanNeeds (q : Query) (col : Str) : Query :=
  match q.needs_choice with
  | some needsOrig =>
    let needsNew := removeKeyP needsOrig col
    if needsNew ≠ [] then { q with needs_choice := some needsNew }
    else { q with needs_choice := none }
  | none => q

/-- `disambiguator.apply_choice_to_query`.  (A `column` of `None` — the
multi-column `ハツリ` case — splits each label on `=`; the cleanup then
targets the substrate column, as in the source.) -/
def apply_choice_to_query (q : Query) (chosen : List Str) (c : Clarify) : Query :=
  let labels := resolvedLabels chosen c.choices
  let q1 : Query :=
    match c.column with
    | some col => cleanNeeds q col
    | none => cleanNeeds q Col.«下地の状況»
  match c.column with
  | some col => appendVals q1 col labels
  | none =>
    labels.foldl (fun q lab =>
      match splitEq lab with
      | some kv => appendVals q (pyStrip kv.1) [pyStrip kv.2]
      | none => q) q1

end Disambiguator

/-! ### `postprocess.reorder_and_pair` and
`search_core.augment_with_pair_candidates`.

The module-level CSV cache `_ALL_GROUPS` of `postprocess.py` is built from
the dataset file; the dataset rows are a parameter here. -/

namespace Postprocess

/-- `postprocess.eff_rank`. -/
def eff_rank (val : Str) : ℕ :=
  let v := pyStrip val
  if v = ['◎'] then 3 else if v = ['○'] then 2 else if v = ['〇'] then 2
  else if v = ['△'] then 1 else 0

/-- `postprocess.canon_stage`. -/
def canon_stage (s : Str) : Str :=
  if s = [] then []
  else if isSub ['単', '一'] s then ['単', '一']
  else if isSub ['一', '次'] s then ['一', '次']
  else if isSub ['二', '次'] s then ['二', '次']
  else s

/-- `postprocess._row_key_for_group`. -/
def row_key_for_group (r : Row) : Str × Str × Str :=
  (pyStrip r.«作業名», pyStrip r.«下地の状況», pyStrip r.«処理する深さ・厚さ»)

/-- `postprocess._row_id`: work-id when the key is present (even empty),
otherwise the tuple of the main columns. -/
inductive RowId
  | byId (s : Str)
  | byKey (k : List Str)
deriving DecidableEq

/-- `postprocess._row_id`. -/
def row_id (r : Row) : RowId :=
  match r.«作業ID» with
  | some sid => .byId sid
  | none => .byKey [r.«作業名», r.«下地の状況», r.«処理する深さ・厚さ», r.«工程数»,
      r.«機械カテゴリー», r.«ライナックス機種名», r.«使用カッター名», r.«作業効率評価»]

/-- Strict comparison for `postprocess._sort_key_eff`
(`(-eff_rank, 機種名, カッター名)` ascending). -/
def sortKeyEffLt (a b : Row) : Bool :=
  let ea := eff_rank a.«作業効率評価»
  let eb := eff_rank b.«作業効率評価»
  eb < ea || (ea = eb &&
    (strLt a.«ライナックス機種名» b.«ライナックス機種名» ||
     (a.«ライナックス機種名» = b.«ライナックス機種名» &&
      strLt a.«使用カッター名» b.«使用カッター名»)))

/-- The `{"一次": [...], "二次": [...]}` bucket of one group. -/
structure GroupParts where
  «一次» : List Row := []
  «二次» : List Row := []
deriving DecidableEq

/-- Group-keyed association list updated in insertion order
(`dict.setdefault` then mutate). -/
def updateGroup : List ((Str × Str × Str) × GroupParts) → (Str × Str × Str) →
    (GroupParts → GroupParts) → List ((Str × Str × Str) × GroupParts)
  | [], k, f => [(k, f {})]
  | (k', p) :: rest, k, f =>
    if k' = k then (k, f p) :: rest else (k', p) :: updateGroup rest k f

/-- `dict.setdefault(key, {"一次": [], "二次": []})` without modification. -/
def ensureGroup (gs : List ((Str × Str × Str) × GroupParts))
    (k : Str × Str × Str) : List ((Str × Str × Str) × GroupParts) :=
  updateGroup gs k id

/-- Association-list lookup for group buckets. -/
def lookupG : List ((Str × Str × Str) × GroupParts) → (Str × Str × Str) →
    Option GroupParts
  | [], _ => none
  | (k', p) :: rest, k => if k' = k then some p else lookupG rest k

/-- `postprocess._build_all_groups` over given dataset rows: only rows
whose canonical stage is `一次` or `二次` are indexed. -/
def build_all_groups (allRows : List Row) :
    List ((Str × Str × Str) × GroupParts) :=
  allRows.foldl (fun gs r =>
    let stage := canon_stage r.«工程数»
    if stage = ['一', '次'] then
      updateGroup gs (row_key_for_group r) (fun p => { p with «一次» := p.«一次» ++ [r] })
    else if stage = ['二', '次'] then
      updateGroup gs (row_key_for_group r) (fun p => { p with «二次» := p.«二次» ++ [r] })
    else gs) []

/-- `postprocess.reorder_and_pair` (the unused `query_text` and
`filters_effective` parameters are dropped).  `allRows` stands for the
dataset rows behind the `_ALL_GROUPS` cache.  Note the source creates a
(hit-)group bucket for every non-`単一` row — including rows of
unrecognized stage, which then fall to the singles list — so such rows do
open a group that step 2 completes from the dataset. -/
def reorder_and_pair (allRows : List Row) (rows : List Row) : List Row :=
  if rows = [] then []
  else
    let all_groups := build_all_groups allRows
    let grouped := rows.foldl
      (fun (st : List ((Str × Str × Str) × GroupParts) × List Row) r =>
        let stage := canon_stage r.«工程数»
        if stage = ['単', '一'] then (st.1, st.2 ++ [r])
        else
          let key := row_key_for_group r
          let gs := ensureGroup st.1 key
          if stage = ['一', '次'] then
            (updateGroup gs key (fun p => { p with «一次» := p.«一次» ++ [r] }), st.2)
          else if stage = ['二', '次'] then
            (updateGroup gs key (fun p => { p with «二次» := p.«二次» ++ [r] }), st.2)
          else (gs, st.2 ++ [r])) ([], [])
    let groups_hit := grouped.1
    let singles_all := grouped.2
    let groups2 := groups_hit.map (fun kp =>
      match lookupG all_groups kp.1 with
      | none => kp
      | some full =>
        let p := kp.2
        let p := if p.«一次» = [] ∧ full.«一次» ≠ [] then
            { p with «一次» := p.«一次» ++ full.«一次» } else p
        let p := if p.«二次» = [] ∧ full.«二次» ≠ [] then
            { p with «二次» := p.«二次» ++ full.«二次» } else p
        (kp.1, p))
    let singles_sorted := sortStable sortKeyEffLt singles_all
    let paired_all := groups2.foldl (fun acc kp =>
      acc ++ sortStable sortKeyEffLt kp.2.«一次» ++ sortStable sortKeyEffLt kp.2.«二次») []
    ((singles_sorted ++ paired_all).foldl
      (fun (st : List Row × List RowId) r =>
        if row_id r ∈ st.2 then st else (st.1 ++ [r], row_id r :: st.2))
      ([], [])).1

end Postprocess

namespace SearchCore

/-- `search_core._pair_key`: the work id when non-empty, else the
(task, substrate, depth) triple padded to the same width. -/
def pair_key (r : Row) : Str × Str × Str × Str :=
  let work_id := pyStrip (r.«作業ID».getD [])
  if work_id ≠ [] then (work_id, [], [], [])
  else (pyStrip r.«作業名», pyStrip r.«下地の状況», pyStrip r.«処理する深さ・厚さ», [])

/-- The `{"一次工程": [...], "二次工程": [...], "単一": [...]}` bucket of
`build_stage_index`. -/
structure StageIdx where
  «一次工程» : List Row := []
  «二次工程» : List Row := []
  «単一» : List Row := []
deriving DecidableEq

/-- Insertion-ordered update of the stage index. -/
def updateIdx : List ((Str × Str × Str × Str) × StageIdx) →
    (Str × Str × Str × Str) → (StageIdx → StageIdx) →
    List ((Str × Str × Str × Str) × StageIdx)
  | [], k, f => [(k, f {})]
  | (k', p) :: rest, k, f =>
    if k' = k then (k, f p) :: rest else (k', p) :: updateIdx rest k f

/-- Association-list lookup in the stage index. -/
def lookupIdx : List ((Str × Str × Str × Str) × StageIdx) →
    (Str × Str × Str × Str) → Option StageIdx
  | [], _ => none
  | (k', p) :: rest, k => if k' = k then some p else lookupIdx rest k

/-- The loop body of `build_stage_index`: one row is appended to the bucket
of its exact stage under its pair key. -/
def idxStep (idx : List ((Str × Str × Str × Str) × StageIdx)) (r : Row) :
    List ((Str × Str × Str × Str) × StageIdx) :=
  let key := pair_key r
  let stage := pyStrip r.«工程数»
  if stage = ['一', '次', '工', '程'] then
    updateIdx idx key (fun b => { b with «一次工程» := b.«一次工程» ++ [r] })
  else if stage = ['二', '次', '工', '程'] then
    updateIdx idx key (fun b => { b with «二次工程» := b.«二次工程» ++ [r] })
  else
    updateIdx idx key (fun b => { b with «単一» := b.«単一» ++ [r] })

/-- `search_core.build_stage_index`. -/
def build_stage_index (rows : List Row) :
    List ((Str × Str × Str × Str) × StageIdx) :=
  rows.foldl idxStep []

/-- The duplicate-suppression signature of `augment_with_pair_candidates`
(seven columns). -/
def sigOf (c : Row) : List Str :=
  [c.«作業ID».getD [], c.«作業名», c.«下地の状況», c.«処理する深さ・厚さ»,
   c.«工程数», c.«ライナックス機種名», c.«使用カッター名»]

/-- The inner candidate loop of `augment_with_pair_candidates`: one
opposite-stage candidate is appended, marked `pair_candidate`, unless its
seven-column signature was already seen. -/
def sigStep (st2 : List Row × List (List Str)) (c : Row) :
    List Row × List (List Str) :=
  let sig := sigOf c
  if sig ∈ st2.2 then st2
  else (st2.1 ++ [{ c with pair_candidate := true }], st2.2 ++ [sig])

/-- The outer loop body of `augment_with_pair_candidates`: rows whose exact
stage is not `一次工程`/`二次工程` are skipped; otherwise all same-key
opposite-stage rows of the previous index are folded in. -/
def augStep (prev_idx : List ((Str × Str × Str × Str) × StageIdx))
    (st : List Row × List (List Str)) (r : Row) :
    List Row × List (List Str) :=
  let stage := pyStrip r.«工程数»
  if stage ≠ ['一', '次', '工', '程'] ∧ stage ≠ ['二', '次', '工', '程'] then st
  else
    let key := pair_key r
    let wantIchiji := stage = ['二', '次', '工', '程']
    let candidates :=
      match lookupIdx prev_idx key with
      | some b => if wantIchiji then b.«一次工程» else b.«二次工程»
      | none => []
    candidates.foldl sigStep st

/-- `search_core.augment_with_pair_candidates`: for every current row of
exact stage `一次工程`/`二次工程`, append (marked, deduplicated) all
opposite-stage rows of the same pair key from the previous unfiltered
rows. -/
def augment_with_pair_candidates (current_rows previous_unfiltered_rows : List Row) :
    List Row :=
  if current_rows = [] ∨ previous_unfiltered_rows = [] then current_rows
  else
    (current_rows.foldl (augStep (build_stage_index previous_unfiltered_rows))
      (current_rows, [])).1

/-- Verification helper: the bucket of the stage index that holds rows of
exact stage `s`. -/
def bucketOf (s : Str) (b : StageIdx) : List Row :=
  if s = ['一', '次', '工', '程'] then b.«一次工程»
  else if s = ['二', '次', '工', '程'] then b.«二次工程»
  else b.«単一»

/-- `search_core.prepare_with_pairs`. -/
def prepare_with_pairs (filtered_hits previous_unfiltered_hits : List Row) :
    List Row :=
  sortStable (fun a b => natPairLt (sort_key a) (sort_key b))
    (augment_with_pair_candidates filtered_hits previous_unfiltered_hits)

/-- The opposite of an exact stage string. -/
def oppStage (s : Str) : Str :=
  if s = ['一', '次', '工', '程'] then ['二', '次', '工', '程']
  else ['一', '次', '工', '程']

end SearchCore

namespace NlpExtract

/-- The winning column of an alias's candidate list: the first column of
the priority-sorted candidates (`cand_list.sort(...); cand_list[0][0]`). -/
def aliasWin (pairs : List (Str × Str)) : Option Str :=
  ((sortStable (fun a b => prio a.1 < prio b.1) pairs).head?).map Prod.fst

end NlpExtract

/-! ### Concrete fixtures used by witnesses and counterexamples -/

/-- Fixture: a row with task name `a`. -/
def rowFxA : Row := { «作業名» := ['a'] }

/-- Fixture: a query constraining the task name to `a`. -/
def qFxA : Query := { fields := [(Col.«作業名», [['a']])] }

/-- Fixture: a row with task name `A` and depth cell `1-2`. -/
def rowFx3 : Row := { «作業名» := ['A'], «処理する深さ・厚さ» := ['1', '-', '2'] }

/-- Fixture: task name `A` with point depth 5 (outside the row's 1–2). -/
def qFx3 : Query := { fields := [(Col.«作業名», [['A']])], depth_value := some 5 }

/-- Fixture alias index: the alias `grind` maps to `grindwork` under the
task-name column and to the canonical label `grind` under the
machine-category column. -/
def aliasIdxFx : NlpExtract.AliasIdx :=
  [(Col.«作業名», [(['g', 'r', 'i', 'n', 'd'],
      [['g', 'r', 'i', 'n', 'd', 'w', 'o', 'r', 'k']])]),
   (Col.«機械カテゴリー», [(['g', 'r', 'i', 'n', 'd'],
      [['g', 'r', 'i', 'n', 'd']])])]

/-- Fixture dataset vocabulary: `grind` is a machine-category label. -/
def labelsFx : NlpExtract.LabelsByCol :=
  [(Col.«機械カテゴリー», [['g', 'r', 'i', 'n', 'd']])]

/-- Fixture input text. -/
def textFx : Str := ['g', 'r', 'i', 'n', 'd']

/-- Fixture: the `エポキシ` clarification of `disambiguator._choices`. -/
def clarifyFx : Disambiguator.Clarify :=
  { trigger := ['エ', 'ポ', 'キ', 'シ'], column := some Col.«下地の状況»,
    choices :=
      [{ id := some ['1'],
         label := some ['防', '塵', '塗', '料', '（', 'エ', 'ポ', 'キ', 'シ', '）'] },
       { id := some ['2'],
         label := some ['厚', '膜', '塗', '料', '（', 'エ', 'ポ', 'キ', 'シ', '）'] },
       { id := some ['3'],
         label := some ['防', '塵', '塗', '料', '（', 'エ', 'ポ', 'キ', 'シ', '塗',
           'り', '重', 'ね', '）'] }] }

/-- Fixture: a query with the pending `エポキシ` clarification. -/
def qPendFx : Query :=
  { fields := [(Col.«下地の状況», [])],
    needs_choice := some [(Col.«下地の状況», ⟨['エ', 'ポ', 'キ', 'シ'], []⟩)] }

/-- Fixture: a single-stage row with an empty work id. -/
def rowFxS : Row :=
  { «作業ID» := some [], «作業名» := ['S'], «工程数» := ['単', '一', '工', '程'] }

/-- Fixture: a primary-stage hit row with work id `1`. -/
def rowFxP : Row :=
  { «作業ID» := some ['1'], «作業名» := ['W'], «工程数» := ['一', '次', '工', '程'] }

/-- Fixture: the matching secondary-stage dataset row, with an empty work
id that collides with `rowFxS` under `_row_id`. -/
def rowFxQ : Row :=
  { «作業ID» := some [], «作業名» := ['W'], «工程数» := ['二', '次', '工', '程'] }

/-- Fixture: a primary-stage row without a work-id key. -/
def rowFxP2 : Row := { «作業名» := ['W'], «工程数» := ['一', '次', '工', '程'] }

/-- Fixture: the matching secondary-stage row without a work-id key. -/
def rowFxQ2 : Row := { «作業名» := ['W'], «工程数» := ['二', '次', '工', '程'] }

/-! ### Helper lemmas -/

theorem Dec.le_refl' (a : Dec) : Dec.le a a = true := by
  simp [Dec.le]

theorem Dec.le_of_lt' {a b : Dec} (h : Dec.lt a b = true) : Dec.le a b = true := by
  simp only [Dec.lt, decide_eq_true_eq] at h
  simp only [Dec.le, decide_eq_true_eq]
  omega

theorem Dec.le_of_not_lt' {a b : Dec} (h : Dec.lt a b = false) : Dec.le b a = true := by
  simp only [Dec.lt, decide_eq_false_iff_not] at h
  simp only [Dec.le, decide_eq_true_eq]
  omega

theorem Dec.zero_le' (b : Dec) : Dec.le 0 b = true := by
  show Dec.le ⟨0, 1⟩ b = true
  simp [Dec.le]

theorem splitDelimsAux_ne_nil (l : Str) : ∀ acc, SearchCore.splitDelimsAux acc l ≠ [] := by
  induction l with
  | nil => intro acc; simp [SearchCore.splitDelimsAux]
  | cons c rest ih =>
    intro acc
    unfold SearchCore.splitDelimsAux
    split
    · simp
    · exact ih _

theorem splitDelims_ne_nil (cell : Str) : SearchCore.splitDelims cell ≠ [] :=
  splitDelimsAux_ne_nil cell []

theorem cell_contains_any_sound {cell : Str} {ws : List Str}
    (h : SearchCore.cell_contains_any cell ws = true) (hne : ws ≠ []) :
    ∃ w ∈ ws, SearchCore.canon_text w = SearchCore.canon_text cell ∨
      SearchCore.canon_text w ∈ (SearchCore.splitDelims cell).map SearchCore.canon_text := by
  have hsplit : (SearchCore.splitDelims cell).map SearchCore.canon_text ≠ [] := by
    have h0 := splitDelims_ne_nil cell
    simpa using h0
  simp only [SearchCore.cell_contains_any, if_neg hne, if_neg hsplit,
    List.any_eq_true, Bool.or_eq_true, decide_eq_true_eq] at h
  exact h

/-! ### Claim theorems -/

/-- C1: for every record and structured query, and for every attribute
whose desired-value set is non-empty, the matching engine accepts the
record only if the record's cell for that attribute, after normalization,
equals some desired value or contains one among its delimiter-split parts
(attributes combine with AND, values within an attribute with OR). -/
theorem c1_match_requires_value (row : Row) (q : Query)
    (h : SearchCore.row_match row q = true) :
    (getF q.fields Col.«下地の状況» ≠ [] →
      ∃ w ∈ getF q.fields Col.«下地の状況»,
        SearchCore.canon_text w = SearchCore.canon_text row.«下地の状況» ∨
        SearchCore.canon_text w ∈
          (SearchCore.splitDelims row.«下地の状況»).map SearchCore.canon_text) ∧
    (getF q.fields Col.«作業名» ≠ [] →
      ∃ w ∈ getF q.fields Col.«作業名»,
        SearchCore.canon_text w = SearchCore.canon_text row.«作業名» ∨
        SearchCore.canon_text w ∈
          (SearchCore.splitDelims row.«作業名»).map SearchCore.canon_text) ∧
    (getF q.fields Col.«機械カテゴリー» ≠ [] →
      ∃ w ∈ getF q.fields Col.«機械カテゴリー»,
        SearchCore.canon_text w = SearchCore.canon_text row.«機械カテゴリー» ∨
        SearchCore.canon_text w ∈
          (SearchCore.splitDelims row.«機械カテゴリー»).map SearchCore.canon_text) ∧
    (getF q.fields Col.«ライナックス機種名» ≠ [] →
      ∃ w ∈ getF q.fields Col.«ライナックス機種名»,
        SearchCore.canon_text w = SearchCore.canon_text row.«ライナックス機種名» ∨
        SearchCore.canon_text w ∈
          (SearchCore.splitDelims row.«ライナックス機種名»).map SearchCore.canon_text) ∧
    (getF q.fields Col.«使用カッター名» ≠ [] →
      ∃ w ∈ getF q.fields Col.«使用カッター名»,
        SearchCore.canon_text w = SearchCore.canon_text row.«使用カッター名» ∨
        SearchCore.canon_text w ∈
          (SearchCore.splitDelims row.«使用カッター名»).map SearchCore.canon_text) ∧
    (getF q.fields Col.«工程数» ≠ [] →
      ∃ w ∈ getF q.fields Col.«工程数»,
        SearchCore.canon_text w = SearchCore.canon_text row.«工程数» ∨
        SearchCore.canon_text w ∈
          (SearchCore.splitDelims row.«工程数»).map SearchCore.canon_text) ∧
    (getF q.fields Col.«作業効率評価» ≠ [] →
      ∃ w ∈ getF q.fields Col.«作業効率評価»,
        SearchCore.canon_text w = SearchCore.canon_text row.«作業効率評価» ∨
        SearchCore.canon_text w ∈
          (SearchCore.splitDelims row.«作業効率評価»).map SearchCore.canon_text) := by
  simp only [SearchCore.row_match, Bool.and_eq_true] at h
  obtain ⟨⟨⟨⟨⟨⟨⟨h1, h2⟩, h3⟩, h4⟩, h5⟩, h6⟩, _hd⟩, h8⟩ := h
  exact ⟨fun hne => cell_contains_any_sound h1 hne,
    fun hne => cell_contains_any_sound h2 hne,
    fun hne => cell_contains_any_sound h3 hne,
    fun hne => cell_contains_any_sound h4 hne,
    fun hne => cell_contains_any_sound h5 hne,
    fun hne => cell_contains_any_sound h6 hne,
    fun hne => cell_contains_any_sound h8 hne⟩

/-- Witness for C1 at a concrete matching row and query. -/
theorem c1_match_requires_value_witness :
    ∃ w ∈ getF qFxA.fields Col.«作業名»,
      SearchCore.canon_text w = SearchCore.canon_text rowFxA.«作業名» ∨
      SearchCore.canon_text w ∈
        (SearchCore.splitDelims rowFxA.«作業名»).map SearchCore.canon_text :=
  (c1_match_requires_value rowFxA qFxA (by decide)).2.1 (by decide)

/-- C5: a record whose depth cell yields no parseable range passes the
depth check iff the query carries no depth constraint at all (no range, no
point value, empty legacy string list). -/
theorem c5_unparseable_depth (cell : Str) (dr : Option (Dec × Dec))
    (dv : Option Dec) (ws : List Str)
    (h : SearchCore.parse_depth_range cell = none) :
    SearchCore.depth_match_row cell dr dv ws = true ↔
      dr = none ∧ dv = none ∧ ws = [] := by
  cases dr with
  | some d => simp [SearchCore.depth_match_row, h]
  | none =>
    cases dv with
    | some v => simp [SearchCore.depth_match_row, h]
    | none =>
      by_cases hw : ws = [] <;> simp [SearchCore.depth_match_row, h, hw]

/-- Witness for C5 at a concrete unparseable cell. -/
theorem c5_unparseable_depth_witness :
    SearchCore.depth_match_row ['x'] none none [] = true :=
  (c5_unparseable_depth ['x'] none none [] (by decide)).mpr ⟨rfl, rfl, rfl⟩

/-- C10: every non-`None` range produced by the depth parsers is ordered
(`lo ≤ hi`): a reversed explicit range is swapped by both the dataset-cell
parser and the user-text parser. -/
theorem c10_ranges_ordered :
    (∀ cell lo hi, SearchCore.parse_depth_range cell = some (lo, hi) → lo ≤ hi) ∧
    (∀ t lo hi, NlpExtract.extract_depth t = some (.range lo hi) → lo ≤ hi) := by
  constructor
  · intro cell lo hi h
    show Dec.le lo hi = true
    unfold SearchCore.parse_depth_range at h
    by_cases hcell : cell = []
    · rw [if_pos hcell] at h; exact absurd h (by simp)
    · rw [if_neg hcell] at h
      simp only [] at h
      split at h
      · split at h
        · rename_i a b _ hlt
          obtain ⟨rfl, rfl⟩ : b = lo ∧ a = hi := by simpa using h
          exact Dec.le_of_lt' hlt
        · rename_i a b _ hlt
          obtain ⟨rfl, rfl⟩ : a = lo ∧ b = hi := by simpa using h
          exact Dec.le_of_not_lt' (by simpa using hlt)
      · split at h
        · rename_i b _
          obtain ⟨rfl, rfl⟩ : (0 : Dec) = lo ∧ b = hi := by simpa using h
          exact Dec.zero_le' b
        · split at h
          · rename_i v _
            obtain ⟨rfl, rfl⟩ : v = lo ∧ v = hi := by simpa using h
            exact Dec.le_refl' v
          · exact absurd h (by simp)
  · intro t lo hi h
    show Dec.le lo hi = true
    unfold NlpExtract.extract_depth at h
    simp only [] at h
    split at h
    · split at h
      · rename_i a b _ hlt
        obtain ⟨rfl, rfl⟩ : b = lo ∧ a = hi := by simpa using h
        exact Dec.le_of_lt' hlt
      · rename_i a b _ hlt
        obtain ⟨rfl, rfl⟩ : a = lo ∧ b = hi := by simpa using h
        exact Dec.le_of_not_lt' (by simpa using hlt)
    · split at h
      · exact absurd h (by simp)
      · exact absurd h (by simp)

theorem Dec.le_iff (a b : Dec) : a ≤ b ↔ Dec.le a b = true := Iff.rfl

theorem range_out_check_status {rows : List Row} {q : Query} {o : SearchCore.SearchOutcome}
    (h : SearchCore.range_out_check rows q = some o) : o.status = "range_out" := by
  unfold SearchCore.range_out_check at h
  split at h
  · exact absurd h (by simp)
  · split at h
    · exact absurd h (by simp)
    · split at h
      · exact absurd h (by simp)
      · simp only [] at h
        have h' := Option.some.inj h
        rw [← h']

theorem mem_insertSorted {lt : α → α → Bool} {x y : α} :
    ∀ {l : List α}, x ∈ insertSorted lt y l ↔ x = y ∨ x ∈ l := by
  intro l
  induction l with
  | nil => simp [insertSorted]
  | cons z rest ih =>
    unfold insertSorted
    split
    · simp only [List.mem_cons, ih]
      tauto
    · simp [List.mem_cons]

theorem mem_sortStable {lt : α → α → Bool} {x : α} :
    ∀ {l : List α}, x ∈ sortStable lt l ↔ x ∈ l := by
  intro l
  induction l with
  | nil => simp [sortStable]
  | cons a t ih =>
    show x ∈ insertSorted lt a (sortStable lt t) ↔ _
    rw [mem_insertSorted]
    simp [ih]

theorem collect_depth_vals_mem {c : Str} :
    ∀ (rows : List Row) (acc : List Str),
      c ∈ rows.foldl (fun acc r =>
        match SearchCore.normalize_depth_str r.«処理する深さ・厚さ» with
        | some v => if v = [] then acc else if v ∈ acc then acc else acc ++ [v]
        | none => acc) acc →
      c ∈ acc ∨ ∃ r ∈ rows, SearchCore.normalize_depth_str r.«処理する深さ・厚さ» = some c := by
  intro rows
  induction rows with
  | nil => intro acc h; exact Or.inl h
  | cons r rest ih =>
    intro acc h
    rw [List.foldl_cons] at h
    rcases ih _ h with hacc | ⟨r', hr', he⟩
    · cases hnd : SearchCore.normalize_depth_str r.«処理する深さ・厚さ» with
      | none =>
        rw [hnd] at hacc
        exact Or.inl hacc
      | some v =>
        rw [hnd] at hacc
        simp only [] at hacc
        by_cases hv0 : v = []
        · rw [if_pos hv0] at hacc; exact Or.inl hacc
        · rw [if_neg hv0] at hacc
          by_cases hvm : v ∈ acc
          · rw [if_pos hvm] at hacc; exact Or.inl hacc
          · rw [if_neg hvm] at hacc
            rcases List.mem_append.mp hacc with hacc | hacc
            · exact Or.inl hacc
            · refine Or.inr ⟨r, List.mem_cons_self .., ?_⟩
              simp only [List.mem_singleton] at hacc
              rw [← hacc] at hnd
              exact hnd
    · exact Or.inr ⟨r', List.mem_cons_of_mem _ hr', he⟩

theorem collect_depth_candidates_mem {c : Str} {rows : List Row} {k : ℕ}
    (h : c ∈ SearchCore.collect_depth_candidates_from_rows rows k) :
    ∃ r ∈ rows, SearchCore.normalize_depth_str r.«処理する深さ・厚さ» = some c := by
  unfold SearchCore.collect_depth_candidates_from_rows at h
  simp only [] at h
  have h1 : c ∈ SearchCore.sort_depth_strings (rows.foldl _ []) := List.mem_of_mem_take h
  rw [SearchCore.sort_depth_strings, mem_sortStable] at h1
  rcases collect_depth_vals_mem rows [] h1 with h2 | h2
  · simp at h2
  · exact h2

theorem collect_depth_candidates_length (rows : List Row) (k : ℕ) :
    (SearchCore.collect_depth_candidates_from_rows rows k).length ≤ k := by
  unfold SearchCore.collect_depth_candidates_from_rows
  exact List.length_take_le _ _

/-- C2: with no out-of-range point-depth early return, `run_query`
classifies a dict query by hit count: an empty query is
`invalid_conditions`; zero hits is `no_results`; ten or more hits is
`need_refine` carrying all hits; one to nine hits is `ok`. -/
theorem c2_outcome_classification (rows : List Row) (q : Query) :
    (SearchCore.is_query_empty q = true →
      (SearchCore.run_query rows q).status = "invalid_conditions") ∧
    (SearchCore.is_query_empty q = false →
      (SearchCore.run_query rows q).status ≠ "range_out" →
      (SearchCore.run_query_system rows q = [] →
        (SearchCore.run_query rows q).status = "no_results") ∧
      (10 ≤ (SearchCore.run_query_system rows q).length →
        (SearchCore.run_query rows q).status = "need_refine" ∧
        (SearchCore.run_query rows q).raw_hits =
          some (SearchCore.run_query_system rows q)) ∧
      (SearchCore.run_query_system rows q ≠ [] →
        (SearchCore.run_query_system rows q).length < 10 →
        (SearchCore.run_query rows q).status = "ok")) := by
  constructor
  · intro he
    simp [SearchCore.run_query, he]
  · intro he hnro
    have hrc : SearchCore.range_out_check rows q = none := by
      cases hrc : SearchCore.range_out_check rows q with
      | none => rfl
      | some o =>
        have ho : (SearchCore.run_query rows q).status = "range_out" := by
          simp [SearchCore.run_query, he, hrc, range_out_check_status hrc]
        exact absurd ho hnro
    refine ⟨?_, ?_, ?_⟩
    · intro hnil
      simp [SearchCore.run_query, he, hrc, hnil]
    · intro hlen
      have hne : SearchCore.run_query_system rows q ≠ [] := by
        intro h0
        rw [h0] at hlen
        simp at hlen
      constructor <;> simp [SearchCore.run_query, he, hrc, hne, hlen]
    · intro hne hlt
      have hnotle : ¬ 10 ≤ (SearchCore.run_query_system rows q).length :=
        Nat.not_le.mpr hlt
      simp [SearchCore.run_query, he, hrc, hne, hnotle]

/-- Witness for C2: a non-empty query over an empty dataset yields
`no_results`; over a one-row matching dataset it yields `ok`. -/
theorem c2_outcome_classification_witness :
    (SearchCore.run_query [] qFxA).status = "no_results" ∧
    (SearchCore.run_query [rowFxA] qFxA).status = "ok" :=
  ⟨((c2_outcome_classification [] qFxA).2 (by decide) (by decide)).1 (by decide),
   ((c2_outcome_classification [rowFxA] qFxA).2 (by decide)
      (by decide)).2.2 (by decide) (by decide)⟩

/-- C3: when the query carries a point depth constraint outside the
`[min, max]` depth range recomputed with the depth constraint removed,
`run_query` returns `range_out` carrying the hits obtained with the depth
constraint dropped, the clamped suggested value, and at most 8 depth
strings observed among those hits. -/
theorem c3_range_out (rows : List Row) (q : Query) (v mn mx : Dec)
    (hne : SearchCore.is_query_empty q = false)
    (hv : q.depth_value = some v)
    (hest : SearchCore.estimate_allowed_range_without_depth rows q = some (mn, mx))
    (hout : ¬(mn ≤ v ∧ v ≤ mx)) :
    (SearchCore.run_query rows q).status = "range_out" ∧
    (SearchCore.run_query rows q).raw_hits =
      some (SearchCore.run_query_system rows (SearchCore.remove_depth q)) ∧
    (SearchCore.run_query rows q).suggest_depth =
      some (SearchCore.clamp_depth v mn mx) ∧
    (SearchCore.run_query rows q).total_hits =
      some (SearchCore.run_query_system rows (SearchCore.remove_depth q)).length ∧
    ∃ cs, (SearchCore.run_query rows q).depth_candidates = some cs ∧
      cs.length ≤ 8 ∧
      ∀ c ∈ cs, ∃ r ∈ SearchCore.run_query_system rows (SearchCore.remove_depth q),
        SearchCore.normalize_depth_str r.«処理する深さ・厚さ» = some c := by
  have hb : (Dec.le mn v && Dec.le v mx) = false := by
    rw [Dec.le_iff, Dec.le_iff] at hout
    cases h1 : Dec.le mn v <;> cases h2 : Dec.le v mx <;> simp_all
  have hro : SearchCore.range_out_check rows q =
      some { status := "range_out",
             suggest_depth := some (SearchCore.clamp_depth v mn mx),
             total_hits :=
               some (SearchCore.run_query_system rows (SearchCore.remove_depth q)).length,
             raw_hits :=
               some (SearchCore.run_query_system rows (SearchCore.remove_depth q)),
             depth_candidates :=
               some (SearchCore.collect_depth_candidates_from_rows
                 (SearchCore.run_query_system rows (SearchCore.remove_depth q)) 8) } := by
    simp [SearchCore.range_out_check, hv, hest, hb]
  have hrq : SearchCore.run_query rows q =
      { status := "range_out",
        suggest_depth := some (SearchCore.clamp_depth v mn mx),
        total_hits :=
          some (SearchCore.run_query_system rows (SearchCore.remove_depth q)).length,
        raw_hits :=
          some (SearchCore.run_query_system rows (SearchCore.remove_depth q)),
        depth_candidates :=
          some (SearchCore.collect_depth_candidates_from_rows
            (SearchCore.run_query_system rows (SearchCore.remove_depth q)) 8) } := by
    simp [SearchCore.run_query, hne, hro]
  rw [hrq]
  refine ⟨rfl, rfl, rfl, rfl, _, rfl, collect_depth_candidates_length _ 8, ?_⟩
  intro c hc
  exact collect_depth_candidates_mem hc

/-- Witness for C3 at a one-row dataset whose only depth range is 1–2 and
a requested point depth of 5. -/
theorem c3_range_out_witness :
    (SearchCore.run_query [rowFx3] qFx3).status = "range_out" ∧
    (SearchCore.run_query [rowFx3] qFx3).suggest_depth = some (SearchCore.clamp_depth 5 1 2) :=
  ⟨(c3_range_out [rowFx3] qFx3 5 1 2 (by decide) (by decide) (by decide) (by decide)).1,
   (c3_range_out [rowFx3] qFx3 5 1 2 (by decide) (by decide) (by decide)
      (by decide)).2.2.1⟩

/-- Witness for C10 on the reversed ranges `5-3` (cell) and `5-3mm`
(text). -/
theorem c10_ranges_ordered_witness :
    SearchCore.parse_depth_range ['5', '-', '3'] = some (3, 5) ∧
    NlpExtract.extract_depth ['5', '-', '3', 'm', 'm'] =
      some (.range 3 5) ∧
    (3 : Dec) ≤ 5 ∧ (3 : Dec) ≤ 5 :=
  ⟨by decide, by decide,
   c10_ranges_ordered.1 ['5', '-', '3'] 3 5 (by decide),
   c10_ranges_ordered.2 ['5', '-', '3', 'm', 'm'] 3 5 (by decide)⟩


/-! ### Character-class and translation lemmas -/

theorem lookupC_eq_none {pairs : List (Char × Str)} {c : Char}
    (h : ∀ p ∈ pairs, p.1 ≠ c) : lookupC pairs c = none := by
  induction pairs with
  | nil => rfl
  | cons p rest ih =>
    unfold lookupC
    rw [if_neg (h p (List.mem_cons_self ..))]
    exact ih fun p' hp' => h p' (List.mem_cons_of_mem _ hp')

theorem lookupC_mem {pairs : List (Char × Str)} {c : Char} {r : Str}
    (h : lookupC pairs c = some r) : (c, r) ∈ pairs := by
  induction pairs with
  | nil => exact absurd h (by simp [lookupC])
  | cons p rest ih =>
    unfold lookupC at h
    split at h
    · rename_i heq
      obtain ⟨p1, p2⟩ := p
      cases h
      cases heq
      exact List.mem_cons_self ..
    · exact List.mem_cons_of_mem _ (ih h)

theorem mem_tr_nodigit {pairs : List (Char × Str)}
    (hp : ∀ p ∈ pairs, isDigitU p.1 = false → ∀ d ∈ p.2, isDigitU d = false)
    {c : Char} (hc : isDigitU c = false) {d : Char} (hd : d ∈ tr pairs c) :
    isDigitU d = false := by
  unfold tr at hd
  cases hl : lookupC pairs c with
  | none =>
    rw [hl] at hd
    simp only [List.mem_singleton] at hd
    rw [hd]; exact hc
  | some r =>
    rw [hl] at hd
    exact hp _ (lookupC_mem hl) hc d hd

theorem mem_tr_alldigit {pairs : List (Char × Str)}
    (hp : ∀ p ∈ pairs, isDigitU p.1 = true → ∀ d ∈ p.2, isDigitU d = true)
    {c : Char} (hc : isDigitU c = true) {d : Char} (hd : d ∈ tr pairs c) :
    isDigitU d = true := by
  unfold tr at hd
  cases hl : lookupC pairs c with
  | none =>
    rw [hl] at hd
    simp only [List.mem_singleton] at hd
    rw [hd]; exact hc
  | some r =>
    rw [hl] at hd
    exact hp _ (lookupC_mem hl) hc d hd

theorem mem_charExpand {pairs : List (Char × Str)} {c : Char} :
    ∀ {l : Str}, c ∈ charExpand pairs l → ∃ d ∈ l, c ∈ tr pairs d := by
  intro l
  induction l with
  | nil => intro h; exact absurd h (by simp [charExpand])
  | cons d rest ih =>
    intro h
    unfold charExpand at h
    rcases List.mem_append.mp h with h | h
    · exact ⟨d, List.mem_cons_self .., h⟩
    · obtain ⟨d', hd', hc⟩ := ih h
      exact ⟨d', List.mem_cons_of_mem _ hd', hc⟩

theorem charExpand_fixed {pairs : List (Char × Str)} :
    ∀ {l : Str}, (∀ c ∈ l, tr pairs c = [c]) → charExpand pairs l = l := by
  intro l
  induction l with
  | nil => intro _; rfl
  | cons c rest ih =>
    intro h
    unfold charExpand
    rw [h c (List.mem_cons_self ..), ih fun c' hc' => h c' (List.mem_cons_of_mem _ hc')]
    rfl

theorem tr_fix_of_lookup_none {pairs : List (Char × Str)} {c : Char}
    (h : lookupC pairs c = none) : tr pairs c = [c] := by
  unfold tr
  rw [h]

theorem space_not_digit {c : Char} (h : isPySpace c = true) : isDigitU c = false := by
  simp only [isPySpace, Bool.or_eq_true, decide_eq_true_eq] at h
  rcases h with ((((((h | h) | h) | h) | h) | h) | h) | h <;> rw [h] <;> decide

theorem digit_not_space {c : Char} (h : isDigitU c = true) : isPySpace c = false := by
  cases hs : isPySpace c with
  | false => rfl
  | true => rw [space_not_digit hs] at h; cases h

theorem dropWhile_eq_self_of_all {p : Char → Bool} {l : Str}
    (h : ∀ c ∈ l, p c = false) : l.dropWhile p = l := by
  cases l with
  | nil => rfl
  | cons c rest =>
    rw [List.dropWhile_cons_of_neg]
    rw [h c (List.mem_cons_self ..)]
    simp

theorem pyStrip_eq_self_of_no_space {l : Str}
    (h : ∀ c ∈ l, isPySpace c = false) : pyStrip l = l := by
  unfold pyStrip
  rw [dropWhile_eq_self_of_all h]
  rw [dropWhile_eq_self_of_all (fun c hc => h c (List.mem_reverse.mp hc))]
  exact List.reverse_reverse l

theorem replace2_of_not_mem {p1 p2 : Char} {rep : Str} :
    ∀ {l : Str}, p1 ∉ l → replace2 p1 p2 rep l = l
  | [], _ => rfl
  | [c], _ => rfl
  | c1 :: c2 :: rest, h => by
    have h1 : c1 ≠ p1 := fun he => h (he ▸ List.mem_cons_self ..)
    unfold replace2
    rw [if_neg (fun hand => h1 hand.1)]
    rw [replace2_of_not_mem (fun hm => h (List.mem_cons_of_mem _ hm))]

theorem collapseWsAux_of_no_space {l : Str}
    (h : ∀ c ∈ l, isPySpace c = false) : ∀ b, collapseWsAux b l = l := by
  induction l with
  | nil => intro b; rfl
  | cons c rest ih =>
    intro b
    unfold collapseWsAux
    rw [h c (List.mem_cons_self ..)]
    simp only [Bool.false_eq_true, if_false]
    rw [ih fun c' hc' => h c' (List.mem_cons_of_mem _ hc')]

theorem charExpand_ne_nil {pairs : List (Char × Str)}
    (hp : ∀ p ∈ pairs, p.2 ≠ []) :
    ∀ {l : Str}, l ≠ [] → charExpand pairs l ≠ [] := by
  intro l
  cases l with
  | nil => intro h; exact absurd rfl h
  | cons c rest =>
    intro _
    unfold charExpand
    have htr : tr pairs c ≠ [] := by
      unfold tr
      cases hl : lookupC pairs c with
      | none => simp
      | some r => exact hp _ (lookupC_mem hl)
    intro hap
    rcases List.append_eq_nil.mp hap with ⟨h1, _⟩
    exact htr h1

/-! ### Parser behaviour on digit-free and digit-only inputs -/

theorem numAt_none_of_nodigit {l : Str} (h : ∀ c ∈ l, isDigitU c = false) :
    numAt l = none := by
  cases l with
  | nil => rfl
  | cons c rest =>
    unfold numAt
    rw [List.takeWhile_cons_of_neg]
    · simp
    · rw [h c (List.mem_cons_self ..)]; simp

theorem mem_of_mem_dropWhile {p : Char → Bool} {c : Char} :
    ∀ {l : Str}, c ∈ l.dropWhile p → c ∈ l := by
  intro l
  induction l with
  | nil => exact id
  | cons d rest ih =>
    intro h
    rw [List.dropWhile_cons] at h
    split at h
    · exact List.mem_cons_of_mem _ (ih h)
    · exact h

theorem matchRangeAt_none_of_nodigit {sep : Char → Bool} {l : Str}
    (h : ∀ c ∈ l, isDigitU c = false) : matchRangeAt sep l = none := by
  unfold matchRangeAt
  rw [numAt_none_of_nodigit h]

theorem searchRange_none_of_nodigit {sep : Char → Bool} :
    ∀ {l : Str}, (∀ c ∈ l, isDigitU c = false) → searchRange sep l = none := by
  intro l
  induction l with
  | nil => intro _; rfl
  | cons c rest ih =>
    intro h
    unfold searchRange
    rw [matchRangeAt_none_of_nodigit h]
    exact ih fun c' hc' => h c' (List.mem_cons_of_mem _ hc')

theorem matchOpenAt_none_of_nodigit {l : Str}
    (h : ∀ c ∈ l, isDigitU c = false) : matchOpenAt l = none := by
  unfold matchOpenAt
  split
  · rename_i r2 heq
    have hr2 : ∀ c ∈ r2, isDigitU c = false := by
      intro c hc
      have hmem : c ∈ l.dropWhile isPySpace := by
        rw [heq]; exact List.mem_cons_of_mem _ hc
      exact h c (mem_of_mem_dropWhile hmem)
    rw [numAt_none_of_nodigit fun c hc => hr2 c (mem_of_mem_dropWhile hc)]
  · rfl

theorem matchSingleAt_none_of_nodigit {l : Str}
    (h : ∀ c ∈ l, isDigitU c = false) : matchSingleAt l = none := by
  unfold matchSingleAt
  rw [numAt_none_of_nodigit h]

theorem searchSingle_none_of_nodigit :
    ∀ {l : Str}, (∀ c ∈ l, isDigitU c = false) → searchSingle l = none := by
  intro l
  induction l with
  | nil => intro _; rfl
  | cons c rest ih =>
    intro h
    unfold searchSingle
    rw [matchSingleAt_none_of_nodigit h]
    exact ih fun c' hc' => h c' (List.mem_cons_of_mem _ hc')

theorem matchSingleMMAt_none_of_nodigit {l : Str}
    (h : ∀ c ∈ l, isDigitU c = false) : NlpExtract.matchSingleMMAt l = none := by
  unfold NlpExtract.matchSingleMMAt
  rw [numAt_none_of_nodigit h]

theorem searchSingleMM_none_of_nodigit :
    ∀ {l : Str}, (∀ c ∈ l, isDigitU c = false) → NlpExtract.searchSingleMM l = none := by
  intro l
  induction l with
  | nil => intro _; rfl
  | cons c rest ih =>
    intro h
    unfold NlpExtract.searchSingleMM
    rw [matchSingleMMAt_none_of_nodigit h]
    exact ih fun c' hc' => h c' (List.mem_cons_of_mem _ hc')

theorem takeWhile_eq_self_of_all {p : Char → Bool} :
    ∀ {l : Str}, (∀ c ∈ l, p c = true) → l.takeWhile p = l := by
  intro l
  induction l with
  | nil => intro _; rfl
  | cons c rest ih =>
    intro h
    rw [List.takeWhile_cons_of_pos (by rw [h c (List.mem_cons_self ..)])]
    rw [ih fun c' hc' => h c' (List.mem_cons_of_mem _ hc')]

theorem numAt_alldigit {l : Str} (hne : l ≠ []) (h : ∀ c ∈ l, isDigitU c = true) :
    numAt l = some (⟨digitsVal l, 1⟩, []) := by
  unfold numAt
  rw [takeWhile_eq_self_of_all h]
  rw [if_neg hne]
  simp only [List.drop_length]

theorem matchRangeAt_none_of_alldigit {sep : Char → Bool} {l : Str} (hne : l ≠ [])
    (h : ∀ c ∈ l, isDigitU c = true) : matchRangeAt sep l = none := by
  unfold matchRangeAt
  rw [numAt_alldigit hne h]
  rfl

theorem searchRange_none_of_alldigit {sep : Char → Bool} :
    ∀ {l : Str}, (∀ c ∈ l, isDigitU c = true) → searchRange sep l = none := by
  intro l
  induction l with
  | nil => intro _; rfl
  | cons c rest ih =>
    intro h
    unfold searchRange
    rw [matchRangeAt_none_of_alldigit (by simp) h]
    exact ih fun c' hc' => h c' (List.mem_cons_of_mem _ hc')

theorem matchSingleMMAt_none_of_alldigit {l : Str} (hne : l ≠ [])
    (h : ∀ c ∈ l, isDigitU c = true) : NlpExtract.matchSingleMMAt l = none := by
  unfold NlpExtract.matchSingleMMAt
  rw [numAt_alldigit hne h]
  rfl

theorem searchSingleMM_none_of_alldigit :
    ∀ {l : Str}, (∀ c ∈ l, isDigitU c = true) → NlpExtract.searchSingleMM l = none := by
  intro l
  induction l with
  | nil => intro _; rfl
  | cons c rest ih =>
    intro h
    unfold NlpExtract.searchSingleMM
    rw [matchSingleMMAt_none_of_alldigit (by simp) h]
    exact ih fun c' hc' => h c' (List.mem_cons_of_mem _ hc')

theorem numAt_none_of_head {c : Char} {rest : Str} (h : isDigitU c = false) :
    numAt (c :: rest) = none := by
  unfold numAt
  rw [List.takeWhile_cons_of_neg (by rw [h]; simp)]
  simp

theorem matchSingleAt_alldigit {l : Str} (hne : l ≠ [])
    (h : ∀ c ∈ l, isDigitU c = true) :
    matchSingleAt l = some ⟨digitsVal l, 1⟩ := by
  unfold matchSingleAt
  rw [numAt_alldigit hne h]
  rfl

theorem searchSingle_alldigit {l : Str} (hne : l ≠ [])
    (h : ∀ c ∈ l, isDigitU c = true) :
    searchSingle l = some ⟨digitsVal l, 1⟩ := by
  cases l with
  | nil => exact absurd rfl hne
  | cons c rest =>
    unfold searchSingle
    rw [matchSingleAt_alldigit (by simp) h]


theorem mem_pyStrip {c : Char} {l : Str} (h : c ∈ pyStrip l) : c ∈ l := by
  unfold pyStrip at h
  rw [List.mem_reverse] at h
  have h1 := mem_of_mem_dropWhile h
  rw [List.mem_reverse] at h1
  exact mem_of_mem_dropWhile h1

theorem mem_replace2 {p1 p2 : Char} {rep : Str} {c : Char} :
    ∀ {l : Str}, c ∈ replace2 p1 p2 rep l → c ∈ rep ∨ c ∈ l
  | [], h => by simp [replace2] at h
  | [d], h => by
    simp only [replace2] at h
    exact Or.inr h
  | c1 :: c2 :: rest, h => by
    unfold replace2 at h
    split at h
    · rcases List.mem_append.mp h with h | h
      · exact Or.inl h
      · rcases mem_replace2 h with h | h
        · exact Or.inl h
        · exact Or.inr (List.mem_cons_of_mem _ (List.mem_cons_of_mem _ h))
    · rcases List.mem_cons.mp h with h | h
      · exact Or.inr (h ▸ List.mem_cons_self ..)
      · rcases mem_replace2 h with h | h
        · exact Or.inl h
        · exact Or.inr (List.mem_cons_of_mem _ h)

theorem mem_collapseWsAux {c : Char} :
    ∀ {l : Str} {b : Bool}, c ∈ collapseWsAux b l → c = ' ' ∨ c ∈ l := by
  intro l
  induction l with
  | nil => intro b h; simp [collapseWsAux] at h
  | cons d rest ih =>
    intro b h
    unfold collapseWsAux at h
    split at h
    · split at h
      · rcases ih h with h | h
        · exact Or.inl h
        · exact Or.inr (List.mem_cons_of_mem _ h)
      · rcases List.mem_cons.mp h with h | h
        · exact Or.inl h
        · rcases ih h with h | h
          · exact Or.inl h
          · exact Or.inr (List.mem_cons_of_mem _ h)
    · rcases List.mem_cons.mp h with h | h
      · exact Or.inr (h ▸ List.mem_cons_self ..)
      · rcases ih h with h | h
        · exact Or.inl h
        · exact Or.inr (List.mem_cons_of_mem _ h)

theorem mem_normalizeGen {pairs : List (Char × Str)} {c : Char} {l : Str}
    (h : c ∈ normalizeGen pairs l) :
    c = ' ' ∨ c = 'm' ∨ ∃ d ∈ l, c ∈ tr pairs d := by
  unfold normalizeGen collapseWs at h
  rcases mem_collapseWsAux h with h | h
  · exact Or.inl h
  · rcases mem_replace2 h with h | h
    · exact Or.inr (Or.inl (by simpa using h))
    · rcases mem_replace2 h with h | h
      · exact Or.inr (Or.inl (by simpa using h))
      · exact Or.inr (Or.inr (mem_charExpand (mem_pyStrip h)))

theorem normalize_nodigit {l : Str} (h : ∀ c ∈ l, isDigitU c = false) :
    ∀ c ∈ NlpExtract.normalize l, isDigitU c = false := by
  intro c hc
  rcases mem_normalizeGen hc with h1 | h1 | ⟨d, hd, h1⟩
  · rw [h1]; decide
  · rw [h1]; decide
  · exact mem_tr_nodigit (by decide) (h d hd) h1

theorem charExpand_alldigit {pairs : List (Char × Str)}
    (hp : ∀ p ∈ pairs, isDigitU p.1 = true → ∀ d ∈ p.2, isDigitU d = true)
    {l : Str} (h : ∀ c ∈ l, isDigitU c = true) :
    ∀ c ∈ charExpand pairs l, isDigitU c = true := by
  intro c hc
  obtain ⟨d, hd, hc'⟩ := mem_charExpand hc
  exact mem_tr_alldigit hp (h d hd) hc'

theorem normalize_alldigit {l : Str} (h : ∀ c ∈ l, isDigitU c = true) :
    NlpExtract.normalize l = charExpand NlpExtract.z2hPairs l ∧
    ∀ c ∈ charExpand NlpExtract.z2hPairs l, isDigitU c = true := by
  have hall : ∀ c ∈ charExpand NlpExtract.z2hPairs l, isDigitU c = true :=
    charExpand_alldigit (by decide) h
  have hnospace : ∀ c ∈ charExpand NlpExtract.z2hPairs l, isPySpace c = false :=
    fun c hc => digit_not_space (hall c hc)
  have hm1 : ('ｍ' : Char) ∉ charExpand NlpExtract.z2hPairs l := by
    intro hm
    exact absurd (hall _ hm) (by decide)
  have hm2 : ('Ｍ' : Char) ∉ charExpand NlpExtract.z2hPairs l := by
    intro hm
    exact absurd (hall _ hm) (by decide)
  refine ⟨?_, hall⟩
  unfold NlpExtract.normalize normalizeGen
  rw [pyStrip_eq_self_of_no_space hnospace]
  rw [replace2_of_not_mem hm1, replace2_of_not_mem hm2]
  exact collapseWsAux_of_no_space hnospace false

theorem lookupC_none_of_digit {pairs : List (Char × Str)}
    (hk : ∀ p ∈ pairs, isDigitU p.1 = false) {c : Char} (hc : isDigitU c = true) :
    lookupC pairs c = none := by
  refine lookupC_eq_none fun p hp he => ?_
  have h1 := hk p hp
  rw [he] at h1
  rw [h1] at hc
  cases hc

theorem charExpand_fix_digits {pairs : List (Char × Str)}
    (hk : ∀ p ∈ pairs, isDigitU p.1 = false)
    {l : Str} (h : ∀ c ∈ l, isDigitU c = true) :
    charExpand pairs l = l :=
  charExpand_fixed fun c hc =>
    tr_fix_of_lookup_none (lookupC_none_of_digit hk (h c hc))

theorem matchOpenAt_none_of_alldigit {l : Str}
    (h : ∀ c ∈ l, isDigitU c = true) : matchOpenAt l = none := by
  unfold matchOpenAt
  rw [dropWhile_eq_self_of_all fun c hc => digit_not_space (h c hc)]
  split
  · rename_i r2
    exact absurd (h '~' (List.mem_cons_self ..)) (by decide)
  · rfl


/-- C6 counterexample: the claim asserts that *both* call sites recognize,
in priority order, `a-b`, the open range `~b` as `[0, b]`, and a bare
number as `[v, v]`.  The free-user-text parser (`extract_depth`) returns
`None` on the bare number `3` and on the open range `~5`, while the
dataset-cell parser does parse `3`; the two call sites do not share the
claimed grammar. -/
theorem c6_counterexample :
    NlpExtract.extract_depth ['3'] = none ∧
    NlpExtract.extract_depth ['~', '5'] = none ∧
    SearchCore.parse_depth_range ['3'] = some (3, 3) ∧
    SearchCore.parse_depth_range ['~', '5'] = some (0, 5) := by
  decide

/-- C6 (amended): the dataset-cell parser `_parse_depth_range` recognizes,
in priority order, an explicit range `a-b` (optional unit), an open range
`~b` as `[0, b]`, and a bare number (optional unit) as `[v, v]`, returning
`None` when no number is present; the free-text parser `extract_depth`
recognizes only the explicit range `a-b` (optional unit) and a number with
a *required* unit, returning `None` otherwise — in particular on a bare
number or an open range — and also `None` when no number is present. -/
theorem c6_amended_two_parsers :
    (∀ l, (∀ c ∈ l, isDigitU c = false) →
      SearchCore.parse_depth_range l = none ∧ NlpExtract.extract_depth l = none) ∧
    (∀ ds, ds ≠ [] → (∀ c ∈ ds, isDigitU c = true) →
      SearchCore.parse_depth_range ds =
        some (⟨digitsVal ds, 1⟩, ⟨digitsVal ds, 1⟩) ∧
      NlpExtract.extract_depth ds = none) ∧
    (∀ ds, ds ≠ [] → (∀ c ∈ ds, isDigitU c = true) →
      SearchCore.parse_depth_range ('~' :: ds) = some (0, ⟨digitsVal ds, 1⟩) ∧
      NlpExtract.extract_depth ('~' :: ds) = none) ∧
    (SearchCore.parse_depth_range ['~', '1', '-', '2'] = some (1, 2) ∧
     SearchCore.parse_depth_range ['1', '-', '2', 'm', 'm'] = some (1, 2) ∧
     SearchCore.parse_depth_range ['3', 'm', 'm'] = some (3, 3) ∧
     NlpExtract.extract_depth ['1', '-', '2'] = some (.range 1 2) ∧
     NlpExtract.extract_depth ['3', 'm', 'm'] = some (.single 3)) := by
  refine ⟨?_, ?_, ?_, by decide, by decide, by decide, by decide, by decide⟩
  · intro l h
    constructor
    · unfold SearchCore.parse_depth_range
      by_cases hl : l = []
      · rw [if_pos hl]
      · rw [if_neg hl]
        simp only []
        have ht : ∀ c ∈ charExpand SearchCore.depthCellPairs l, isDigitU c = false :=
          fun c hc => by
            obtain ⟨d, hd, hc'⟩ := mem_charExpand hc
            exact mem_tr_nodigit (by decide) (h d hd) hc'
        rw [searchRange_none_of_nodigit ht, matchOpenAt_none_of_nodigit ht,
          searchSingle_none_of_nodigit ht]
    · unfold NlpExtract.extract_depth
      simp only []
      have ht := normalize_nodigit h
      rw [searchRange_none_of_nodigit ht, searchSingleMM_none_of_nodigit ht]
  · intro ds hne h
    obtain ⟨hnorm, hnd⟩ := normalize_alldigit h
    constructor
    · unfold SearchCore.parse_depth_range
      rw [if_neg hne]
      simp only []
      rw [charExpand_fix_digits (by decide) h]
      rw [searchRange_none_of_alldigit h, matchOpenAt_none_of_alldigit h,
        searchSingle_alldigit hne h]
    · unfold NlpExtract.extract_depth
      simp only []
      rw [hnorm]
      rw [searchRange_none_of_alldigit hnd, searchSingleMM_none_of_alldigit hnd]
  · intro ds hne h
    constructor
    · unfold SearchCore.parse_depth_range
      rw [if_neg (by simp)]
      simp only []
      have hfix : charExpand SearchCore.depthCellPairs ('~' :: ds) = '~' :: ds := by
        show tr SearchCore.depthCellPairs '~' ++
          charExpand SearchCore.depthCellPairs ds = '~' :: ds
        rw [tr_fix_of_lookup_none (by decide), charExpand_fix_digits (by decide) h]
        rfl
      rw [hfix]
      have hsr : searchRange (fun c => c = '-' || c = '~') ('~' :: ds) = none := by
        unfold searchRange
        rw [show matchRangeAt (fun c => c = '-' || c = '~') ('~' :: ds) = none from ?_]
        · exact searchRange_none_of_alldigit h
        · unfold matchRangeAt
          rw [numAt_none_of_head (by decide)]
      rw [hsr]
      have hop : matchOpenAt ('~' :: ds) = some ⟨digitsVal ds, 1⟩ := by
        unfold matchOpenAt
        rw [List.dropWhile_cons_of_neg (by decide)]
        simp only []
        rw [dropWhile_eq_self_of_all fun c hc => digit_not_space (h c hc)]
        rw [numAt_alldigit hne h]
      rw [hop]
    · unfold NlpExtract.extract_depth
      simp only []
      have hnd2 := (normalize_alldigit h).2
      have hexp : NlpExtract.normalize ('~' :: ds) =
          '~' :: charExpand NlpExtract.z2hPairs ds := by
        have hall : ∀ c ∈ ('~' :: charExpand NlpExtract.z2hPairs ds),
            isPySpace c = false ∧ c ≠ 'ｍ' ∧ c ≠ 'Ｍ' := by
          intro c hc
          rcases List.mem_cons.mp hc with hc | hc
          · rw [hc]; refine ⟨by decide, by decide, by decide⟩
          · have hd := hnd2 c hc
            exact ⟨digit_not_space hd,
              fun he => absurd hd (by rw [he]; decide),
              fun he => absurd hd (by rw [he]; decide)⟩
        unfold NlpExtract.normalize normalizeGen
        have hstep : charExpand NlpExtract.z2hPairs ('~' :: ds) =
            '~' :: charExpand NlpExtract.z2hPairs ds := by
          show tr NlpExtract.z2hPairs '~' ++ charExpand NlpExtract.z2hPairs ds = _
          rw [tr_fix_of_lookup_none (by decide)]
          rfl
        rw [hstep]
        rw [pyStrip_eq_self_of_no_space fun c hc => (hall c hc).1]
        rw [replace2_of_not_mem fun hm => (hall _ hm).2.1 rfl]
        rw [replace2_of_not_mem fun hm => (hall _ hm).2.2 rfl]
        exact collapseWsAux_of_no_space (fun c hc => (hall c hc).1) false
      rw [hexp]
      have hsr : searchRange (fun c => c = '-')
          ('~' :: charExpand NlpExtract.z2hPairs ds) = none := by
        unfold searchRange
        rw [show matchRangeAt (fun c => c = '-')
            ('~' :: charExpand NlpExtract.z2hPairs ds) = none from ?_]
        · exact searchRange_none_of_alldigit hnd2
        · unfold matchRangeAt
          rw [numAt_none_of_head (by decide)]
      rw [hsr]
      have hsm : NlpExtract.searchSingleMM
          ('~' :: charExpand NlpExtract.z2hPairs ds) = none := by
        unfold NlpExtract.searchSingleMM
        rw [show NlpExtract.matchSingleMMAt
            ('~' :: charExpand NlpExtract.z2hPairs ds) = none from ?_]
        · exact searchSingleMM_none_of_alldigit hnd2
        · unfold NlpExtract.matchSingleMMAt
          rw [numAt_none_of_head (by decide)]
      rw [hsm]

/-- Witness for C6 (amended) at the concrete digit string `7` and the
digit-free string `abc`. -/
theorem c6_amended_two_parsers_witness :
    (SearchCore.parse_depth_range ['a', 'b', 'c'] = none ∧
     NlpExtract.extract_depth ['a', 'b', 'c'] = none) ∧
    (SearchCore.parse_depth_range ['7'] = some (⟨7, 1⟩, ⟨7, 1⟩) ∧
     NlpExtract.extract_depth ['7'] = none) ∧
    SearchCore.parse_depth_range ['~', '7'] = some (0, ⟨7, 1⟩) :=
  ⟨c6_amended_two_parsers.1 ['a', 'b', 'c'] (by decide),
   (by simpa using c6_amended_two_parsers.2.1 ['7'] (by decide) (by decide)),
   (by simpa using (c6_amended_two_parsers.2.2.1 ['7'] (by decide) (by decide)).1)⟩


/-! ### Association-list and append lemmas for the clarification claim -/

theorem getF_setF_self (fs : List (Str × List Str)) (k : Str) (v : List Str) :
    getF (setF fs k v) k = v := by
  induction fs with
  | nil => simp [setF, getF]
  | cons p rest ih =>
    obtain ⟨k', v'⟩ := p
    unfold setF
    split
    · simp [getF]
    · rename_i hne
      unfold getF
      rw [if_neg hne]
      exact ih

theorem getF_setF_other (fs : List (Str × List Str)) {k k' : Str} (v : List Str)
    (h : k' ≠ k) : getF (setF fs k v) k' = getF fs k' := by
  induction fs with
  | nil =>
    show getF [(k, v)] k' = getF [] k'
    unfold getF
    rw [if_neg fun he => h he.symm]
    rfl
  | cons p rest ih =>
    obtain ⟨k0, v0⟩ := p
    unfold setF
    split
    · rename_i he
      unfold getF
      rw [if_neg (fun hk => h hk.symm), he, if_neg (fun hk => (h hk.symm).elim)]
    · unfold getF
      split
      · rfl
      · exact ih

/-- The fold inside `_append`, named for the statements below. -/
theorem dedupFold_structure :
    ∀ (vals ex : List Str), ∃ new,
      vals.foldl (fun ex v => if v ∈ ex then ex else ex ++ [v]) ex = ex ++ new ∧
      new.Nodup ∧ ∀ v ∈ new, v ∉ ex ∧ v ∈ vals := by
  intro vals
  induction vals with
  | nil => exact fun ex => ⟨[], by simp⟩
  | cons v rest ih =>
    intro ex
    rw [List.foldl_cons]
    by_cases hv : v ∈ ex
    · rw [if_pos hv]
      obtain ⟨new, h1, h2, h3⟩ := ih ex
      exact ⟨new, h1, h2, fun w hw =>
        ⟨(h3 w hw).1, List.mem_cons_of_mem _ (h3 w hw).2⟩⟩
    · rw [if_neg hv]
      obtain ⟨new', h1, h2, h3⟩ := ih (ex ++ [v])
      refine ⟨v :: new', ?_, ?_, ?_⟩
      · rw [h1, List.append_assoc]
        rfl
      · refine List.nodup_cons.mpr ⟨fun hvm => ?_, h2⟩
        have := (h3 v hvm).1
        simp at this
      · intro w hw
        rcases List.mem_cons.mp hw with hw | hw
        · exact ⟨hw ▸ hv, hw ▸ List.mem_cons_self ..⟩
        · refine ⟨fun hm => (h3 w hw).1 (List.mem_append_left _ hm),
            List.mem_cons_of_mem _ (h3 w hw).2⟩

theorem dedupFold_mem {w : Str} :
    ∀ {vals ex : List Str}, w ∈ ex ∨ w ∈ vals →
      w ∈ vals.foldl (fun ex v => if v ∈ ex then ex else ex ++ [v]) ex := by
  intro vals
  induction vals with
  | nil =>
    intro ex h
    rcases h with h | h
    · exact h
    · simp at h
  | cons v rest ih =>
    intro ex h
    rw [List.foldl_cons]
    by_cases hv : v ∈ ex
    · rw [if_pos hv]
      rcases h with h | h
      · exact ih (Or.inl h)
      · rcases List.mem_cons.mp h with h | h
        · exact ih (Or.inl (h ▸ hv))
        · exact ih (Or.inr h)
    · rw [if_neg hv]
      rcases h with h | h
      · exact ih (Or.inl (List.mem_append_left _ h))
      · rcases List.mem_cons.mp h with h | h
        · exact ih (Or.inl (List.mem_append_right _ (by simp [h])))
        · exact ih (Or.inr h)

theorem appendVals_fields_other (q : Query) (k : Str) (vals : List Str)
    {k' : Str} (h : k' ≠ k) :
    getF (Disambiguator.appendVals q k vals).fields k' = getF q.fields k' := by
  unfold Disambiguator.appendVals
  split
  · rfl
  · simp only []
    exact getF_setF_other _ _ h

theorem appendVals_fields_self (q : Query) (k : Str) (vals : List Str) :
    getF (Disambiguator.appendVals q k vals).fields k =
      vals.foldl (fun ex v => if v ∈ ex then ex else ex ++ [v]) (getF q.fields k) := by
  unfold Disambiguator.appendVals
  split
  · rename_i hv
    rw [hv]
    rfl
  · simp only []
    exact getF_setF_self _ _ _

theorem appendVals_needs (q : Query) (k : Str) (vals : List Str) :
    (Disambiguator.appendVals q k vals).needs_choice = q.needs_choice := by
  unfold Disambiguator.appendVals
  split
  · rfl
  · rfl

theorem cleanNeeds_fields (q : Query) (col : Str) :
    (Disambiguator.cleanNeeds q col).fields = q.fields := by
  unfold Disambiguator.cleanNeeds
  split
  · simp only []
    split
    · rfl
    · rfl
  · rfl

theorem apply_choice_eq_of_column {q : Query} {chosen : List Str}
    {c : Disambiguator.Clarify} {col : Str} (hcol : c.column = some col) :
    Disambiguator.apply_choice_to_query q chosen c =
      Disambiguator.appendVals (Disambiguator.cleanNeeds q col) col
        (Disambiguator.resolvedLabels chosen c.choices) := by
  unfold Disambiguator.apply_choice_to_query
  rw [hcol]

/-- C7: applying a clarification answer with a target column: `all`
appends every candidate label, `unknown` appends nothing, indices are
expanded to their labels; resolved labels are appended to (never replace)
the target attribute's existing values without duplicates, other
attributes are untouched, and the pending clarification for the target
column is removed from the query's pending set. -/
theorem c7_apply_choice (q : Query) (chosen : List Str)
    (c : Disambiguator.Clarify) (col : Str) (hcol : c.column = some col) :
    (∀ k, k ≠ col →
      getF (Disambiguator.apply_choice_to_query q chosen c).fields k =
        getF q.fields k) ∧
    (∃ new, getF (Disambiguator.apply_choice_to_query q chosen c).fields col =
        getF q.fields col ++ new ∧ new.Nodup ∧
        ∀ v ∈ new, v ∉ getF q.fields col ∧
          v ∈ Disambiguator.resolvedLabels chosen c.choices) ∧
    (['a', 'l', 'l'] ∈ (chosen.map (fun x => Disambiguator.pyLower (pyStrip x))).filter
        (fun s => s ≠ []) →
      ∀ lab ∈ (Disambiguator.choiceMaps c.choices).2,
        lab ∈ getF (Disambiguator.apply_choice_to_query q chosen c).fields col) ∧
    (['a', 'l', 'l'] ∉ (chosen.map (fun x => Disambiguator.pyLower (pyStrip x))).filter
        (fun s => s ≠ []) →
     ['u', 'n', 'k', 'n', 'o', 'w', 'n'] ∈
        (chosen.map (fun x => Disambiguator.pyLower (pyStrip x))).filter
          (fun s => s ≠ []) →
      (Disambiguator.apply_choice_to_query q chosen c).fields = q.fields) ∧
    (['a', 'l', 'l'] ∉ (chosen.map (fun x => Disambiguator.pyLower (pyStrip x))).filter
        (fun s => s ≠ []) →
     ['u', 'n', 'k', 'n', 'o', 'w', 'n'] ∉
        (chosen.map (fun x => Disambiguator.pyLower (pyStrip x))).filter
          (fun s => s ≠ []) →
      ∀ x ∈ chosen, pyStrip x ≠ [] →
        ∀ lab, Disambiguator.getP (Disambiguator.choiceMaps c.choices).1 (pyStrip x) =
            some lab → lab ≠ [] →
          lab ∈ getF (Disambiguator.apply_choice_to_query q chosen c).fields col) ∧
    ((Disambiguator.apply_choice_to_query q chosen c).needs_choice =
      match q.needs_choice with
      | some m =>
        if Disambiguator.removeKeyP m col ≠ [] then
          some (Disambiguator.removeKeyP m col)
        else none
      | none => none) := by
  rw [apply_choice_eq_of_column hcol]
  refine ⟨?_, ?_, ?_, ?_, ?_, ?_⟩
  · intro k hk
    rw [appendVals_fields_other _ _ _ hk, cleanNeeds_fields]
  · rw [appendVals_fields_self, cleanNeeds_fields]
    exact dedupFold_structure _ _
  · intro hall lab hlab
    rw [appendVals_fields_self, cleanNeeds_fields]
    refine dedupFold_mem (Or.inr ?_)
    unfold Disambiguator.resolvedLabels
    rw [if_pos hall]
    exact hlab
  · intro hnall hunk
    have hlab : Disambiguator.resolvedLabels chosen c.choices = [] := by
      unfold Disambiguator.resolvedLabels
      rw [if_neg hnall, if_pos hunk]
    rw [hlab]
    unfold Disambiguator.appendVals
    rw [if_pos rfl]
    exact cleanNeeds_fields q col
  · intro hnall hnunk x hx hxs lab hlab hlabne
    rw [appendVals_fields_self, cleanNeeds_fields]
    refine dedupFold_mem (Or.inr ?_)
    unfold Disambiguator.resolvedLabels
    rw [if_neg hnall, if_neg hnunk]
    refine List.mem_filter.mpr ⟨?_, by simpa using hlabne⟩
    refine List.mem_map.mpr ⟨pyStrip x, ?_, ?_⟩
    · exact List.mem_filter.mpr ⟨List.mem_map.mpr ⟨x, hx, rfl⟩, by simpa using hxs⟩
    · rw [hlab]
      rfl
  · rw [appendVals_needs]
    unfold Disambiguator.cleanNeeds
    cases hn : q.needs_choice with
    | none => simp [hn]
    | some m =>
      simp only []
      by_cases hne : Disambiguator.removeKeyP m col ≠ []
      · rw [if_pos hne, if_pos hne]
      · rw [if_neg hne, if_neg hne]

/-- Witness for C7: answering `2` to the `エポキシ` clarification appends
exactly the second candidate and clears the pending entry. -/
theorem c7_apply_choice_witness :
    ['厚', '膜', '塗', '料', '（', 'エ', 'ポ', 'キ', 'シ', '）'] ∈
      getF (Disambiguator.apply_choice_to_query qPendFx [['2']] clarifyFx).fields
        Col.«下地の状況» ∧
    (Disambiguator.apply_choice_to_query qPendFx [['2']] clarifyFx).needs_choice =
      none :=
  ⟨(c7_apply_choice qPendFx [['2']] clarifyFx Col.«下地の状況» rfl).2.2.2.2.1
      (by decide) (by decide) ['2'] (by decide) (by decide)
      ['厚', '膜', '塗', '料', '（', 'エ', 'ポ', 'キ', 'シ', '）'] (by decide) (by decide),
   by
    rw [(c7_apply_choice qPendFx [['2']] clarifyFx Col.«下地の状況» rfl).2.2.2.2.2]
    decide⟩


/-! ### Idempotence of the normalizers -/

theorem isSpace_space : isPySpace ' ' = true := by decide

theorem collapseWsAux_cons_space_true {c : Char} {rest : Str}
    (hc : isPySpace c = true) :
    collapseWsAux true (c :: rest) = collapseWsAux true rest := by
  conv_lhs => rw [collapseWsAux]
  rw [hc]
  simp

theorem collapseWsAux_cons_space_false {c : Char} {rest : Str}
    (hc : isPySpace c = true) :
    collapseWsAux false (c :: rest) = ' ' :: collapseWsAux true rest := by
  conv_lhs => rw [collapseWsAux]
  rw [hc]
  simp

theorem collapseWsAux_cons_nonspace {c : Char} {rest : Str}
    (hc : isPySpace c = false) (b : Bool) :
    collapseWsAux b (c :: rest) = c :: collapseWsAux false rest := by
  conv_lhs => rw [collapseWsAux]
  rw [hc]
  simp

theorem collapseWsAux_idem :
    ∀ (l : Str) (b : Bool), collapseWsAux b (collapseWsAux b l) = collapseWsAux b l := by
  intro l
  induction l with
  | nil => intro b; rfl
  | cons c rest ih =>
    intro b
    by_cases hc : isPySpace c = true
    · cases b with
      | true =>
        rw [collapseWsAux_cons_space_true hc]
        exact ih true
      | false =>
        rw [collapseWsAux_cons_space_false hc]
        rw [collapseWsAux_cons_space_false isSpace_space]
        rw [ih true]
    · rw [Bool.not_eq_true] at hc
      rw [collapseWsAux_cons_nonspace hc b]
      rw [collapseWsAux_cons_nonspace hc b]
      rw [ih false]

theorem getLast?_cons_of_ne_nil {a : Char} {l : Str} (h : l ≠ []) :
    (a :: l).getLast? = l.getLast? := by
  cases l with
  | nil => exact absurd rfl h
  | cons b t => exact List.getLast?_cons_cons ..

theorem collapseWsAux_getLast :
    ∀ {l : Str} {d : Char}, l.getLast? = some d → isPySpace d = false →
      ∀ b, (collapseWsAux b l).getLast? = some d
  | [], d, h, _, _ => by cases h
  | [c], d, h, hd, b => by
    have hcd : c = d := by simpa using h
    subst hcd
    rw [collapseWsAux_cons_nonspace hd b]
    rfl
  | c :: r :: rs, d, h, hd, b => by
    have hrn : (r :: rs : Str) ≠ [] := by simp
    rw [getLast?_cons_of_ne_nil hrn] at h
    have hlast : ∀ b', (collapseWsAux b' (r :: rs)).getLast? = some d :=
      fun b' => collapseWsAux_getLast h hd b'
    have hcne : ∀ b', collapseWsAux b' (r :: rs) ≠ [] := by
      intro b' hnil
      have h0 := hlast b'
      rw [hnil] at h0
      cases h0
    by_cases hc : isPySpace c = true
    · cases b with
      | true =>
        rw [collapseWsAux_cons_space_true hc]
        exact hlast true
      | false =>
        rw [collapseWsAux_cons_space_false hc]
        rw [getLast?_cons_of_ne_nil (hcne true)]
        exact hlast true
    · rw [Bool.not_eq_true] at hc
      rw [collapseWsAux_cons_nonspace hc b]
      rw [getLast?_cons_of_ne_nil (hcne false)]
      exact hlast false

theorem collapseWsAux_eq_nil : ∀ {l : Str} {b : Bool}, l = [] → collapseWsAux b l = [] := by
  intro l b h
  rw [h]
  rfl

theorem head_dropWhile {p : Char → Bool} :
    ∀ {l : Str} {c : Char}, (l.dropWhile p).head? = some c → p c = false := by
  intro l
  induction l with
  | nil => intro c h; cases h
  | cons d rest ih =>
    intro c h
    rw [List.dropWhile_cons] at h
    split at h
    · exact ih h
    · rename_i hp
      cases h
      exact Bool.not_eq_true _ ▸ (by simpa using hp)

theorem dropWhile_suffix' {p : Char → Bool} : ∀ (l : Str), l.dropWhile p <:+ l := by
  intro l
  induction l with
  | nil => exact ⟨[], rfl⟩
  | cons c rest ih =>
    rw [List.dropWhile_cons]
    split
    · obtain ⟨s, hs⟩ := ih
      exact ⟨c :: s, by rw [List.cons_append, hs]⟩
    · exact ⟨[], rfl⟩

theorem suffix_reverse_prefix {l₁ l₂ : Str} (h : l₁ <:+ l₂) :
    l₁.reverse <+: l₂.reverse := by
  obtain ⟨s, hs⟩ := h
  refine ⟨s.reverse, ?_⟩
  rw [← List.reverse_append, hs]

theorem head_of_pref {l₁ l₂ : Str} {c : Char} (h : l₁ <+: l₂)
    (hc : l₁.head? = some c) : l₂.head? = some c := by
  obtain ⟨s, rfl⟩ := h
  cases l₁ with
  | nil => cases hc
  | cons a t =>
    cases hc
    rfl

theorem pyStrip_pref (l : Str) : pyStrip l <+: l.dropWhile isPySpace := by
  unfold pyStrip
  have h1 := suffix_reverse_prefix (dropWhile_suffix' (p := isPySpace)
    ((l.dropWhile isPySpace).reverse))
  rw [List.reverse_reverse] at h1
  exact h1

theorem pyStrip_head {l : Str} {c : Char} (h : (pyStrip l).head? = some c) :
    isPySpace c = false :=
  head_dropWhile (head_of_pref (pyStrip_pref l) h)

theorem getLast?_reverse' (l : Str) : l.reverse.getLast? = l.head? := by
  rw [List.getLast?_eq_head?_reverse, List.reverse_reverse]

theorem pyStrip_getLast {l : Str} {c : Char} (h : (pyStrip l).getLast? = some c) :
    isPySpace c = false := by
  unfold pyStrip at h
  rw [getLast?_reverse'] at h
  exact head_dropWhile h

theorem pyStrip_eq_self_of_edges {l : Str}
    (h1 : ∀ c, l.head? = some c → isPySpace c = false)
    (h2 : ∀ c, l.getLast? = some c → isPySpace c = false) :
    pyStrip l = l := by
  have hd : l.dropWhile isPySpace = l := by
    cases l with
    | nil => rfl
    | cons c t =>
      rw [List.dropWhile_cons_of_neg]
      rw [h1 c rfl]
      simp
  unfold pyStrip
  rw [hd]
  cases hr : l.reverse with
  | nil =>
    have : l = [] := by simpa using congrArg List.reverse hr
    rw [this]
    rfl
  | cons c t =>
    have hc : l.getLast? = some c := by
      rw [List.getLast?_eq_head?_reverse, hr]
      rfl
    rw [List.dropWhile_cons_of_neg (by rw [h2 c hc]; simp)]
    rw [← hr, List.reverse_reverse]

theorem lookup_none_of_mem_tr {pairs : List (Char × Str)}
    (H1 : ∀ p ∈ pairs, ∀ c ∈ p.2, lookupC pairs c = none)
    {c d : Char} (h : c ∈ tr pairs d) : lookupC pairs c = none := by
  unfold tr at h
  cases hl : lookupC pairs d with
  | none =>
    rw [hl] at h
    simp only [List.mem_singleton] at h
    rw [h]
    exact hl
  | some r =>
    rw [hl] at h
    exact H1 _ (lookupC_mem hl) c h

theorem collapse_head_nonspace {m : Str}
    (hm : ∀ c, m.head? = some c → isPySpace c = false) :
    ∀ c, (collapseWsAux false m).head? = some c → isPySpace c = false := by
  intro c h
  cases m with
  | nil => cases h
  | cons d t =>
    have hd := hm d rfl
    unfold collapseWsAux at h
    rw [hd] at h
    simp only [Bool.false_eq_true, if_false] at h
    cases h
    exact hd

theorem normalizeGen_idem (pairs : List (Char × Str))
    (H1 : ∀ p ∈ pairs, ∀ c ∈ p.2, lookupC pairs c = none)
    (H2 : lookupC pairs ' ' = none)
    (H5 : lookupC pairs 'm' = none)
    (H3 : lookupC pairs 'ｍ' ≠ none)
    (H4 : lookupC pairs 'Ｍ' ≠ none)
    (l : Str) :
    normalizeGen pairs (normalizeGen pairs l) = normalizeGen pairs l := by
  have hX : ∀ c ∈ charExpand pairs l, lookupC pairs c = none := by
    intro c hc
    obtain ⟨d, _, hc'⟩ := mem_charExpand hc
    exact lookup_none_of_mem_tr H1 hc'
  have hmX : 'ｍ' ∉ pyStrip (charExpand pairs l) :=
    fun hm => H3 (hX _ (mem_pyStrip hm))
  have hMX : 'Ｍ' ∉ pyStrip (charExpand pairs l) :=
    fun hm => H4 (hX _ (mem_pyStrip hm))
  have hn_eq : normalizeGen pairs l =
      collapseWsAux false (pyStrip (charExpand pairs l)) := by
    unfold normalizeGen collapseWs
    rw [replace2_of_not_mem hmX, replace2_of_not_mem hMX]
  have hn_lookup : ∀ c ∈ normalizeGen pairs l, lookupC pairs c = none := by
    intro c hc
    rcases mem_normalizeGen hc with h | h | ⟨d, _, h⟩
    · rw [h]; exact H2
    · rw [h]; exact H5
    · exact lookup_none_of_mem_tr H1 h
  have hz : charExpand pairs (normalizeGen pairs l) = normalizeGen pairs l :=
    charExpand_fixed fun c hc => tr_fix_of_lookup_none (hn_lookup c hc)
  have hmn : 'ｍ' ∉ normalizeGen pairs l := fun hm => H3 (hn_lookup _ hm)
  have hMn : 'Ｍ' ∉ normalizeGen pairs l := fun hm => H4 (hn_lookup _ hm)
  have hhead : ∀ c, (normalizeGen pairs l).head? = some c → isPySpace c = false := by
    rw [hn_eq]
    exact collapse_head_nonspace fun c hc => pyStrip_head hc
  have hlast : ∀ c, (normalizeGen pairs l).getLast? = some c → isPySpace c = false := by
    intro c hc
    rw [hn_eq] at hc
    cases hm : (pyStrip (charExpand pairs l)).getLast? with
    | none =>
      have : pyStrip (charExpand pairs l) = [] := by
        cases hmm : pyStrip (charExpand pairs l) with
        | nil => rfl
        | cons a t =>
          rw [hmm] at hm
          rcases List.getLast?_eq_none_iff.mp hm with h
          cases h
      rw [collapseWsAux_eq_nil this] at hc
      cases hc
    | some d =>
      have hdns : isPySpace d = false := pyStrip_getLast hm
      have := collapseWsAux_getLast hm hdns false
      rw [this] at hc
      cases hc
      exact hdns
  have hstrip : pyStrip (normalizeGen pairs l) = normalizeGen pairs l :=
    pyStrip_eq_self_of_edges hhead hlast
  set n := normalizeGen pairs l with hNdef
  unfold normalizeGen
  rw [hz, hstrip, replace2_of_not_mem hmn, replace2_of_not_mem hMn]
  unfold collapseWs
  rw [hn_eq, collapseWsAux_idem]

/-- C9: text normalization is idempotent at both definitions of
`normalize` (`nlp_extract.py` and `disambiguator.py`); each is a pure
function of its input (it is a Lean function of the string alone). -/
theorem c9_normalize_idempotent :
    (∀ s, NlpExtract.normalize (NlpExtract.normalize s) = NlpExtract.normalize s) ∧
    (∀ s, Disambiguator.normalize (Disambiguator.normalize s) =
      Disambiguator.normalize s) :=
  ⟨fun s => normalizeGen_idem NlpExtract.z2hPairs (by decide) (by decide)
      (by decide) (by decide) (by decide) s,
   fun s => normalizeGen_idem Disambiguator.z2hPairs (by decide) (by decide)
      (by decide) (by decide) (by decide) s⟩

theorem aliasInner_fold_mem (L : NlpExtract.LabelsByCol) (w : Str) :
    ∀ (cs : List (Str × Str)) (fs : List (Str × List Str)) (ad : List Str)
      (col v : Str),
      v ∈ getF ((cs.foldl (NlpExtract.aliasInner L w) (fs, ad)).1) col →
      v ∈ getF fs col ∨
        ∃ cl ∈ cs, cl.1 = w ∧ col = w ∧
          v = NlpExtract.canonicalize_label L w cl.2 := by
  intro cs
  induction cs with
  | nil => intro fs ad col v h; exact Or.inl h
  | cons cl cs ih =>
    intro fs ad col v h
    rw [List.foldl_cons] at h
    rcases ih (NlpExtract.aliasInner L w (fs, ad) cl).1
        (NlpExtract.aliasInner L w (fs, ad) cl).2 col v h with
      h' | ⟨cl', hm, h1, h2, h3⟩
    · unfold NlpExtract.aliasInner at h'
      simp only [] at h'
      split at h'
      · rename_i hcond
        obtain ⟨hc1, _⟩ := hcond
        split at h'
        · exact Or.inl h'
        · by_cases hcw : col = cl.1
          · rw [hcw, getF_setF_self] at h'
            rcases List.mem_append.mp h' with hold | hnew
            · rw [hcw]; exact Or.inl hold
            · rcases List.mem_singleton.mp hnew with rfl
              refine Or.inr ⟨cl, List.mem_cons_self .., hc1, hcw.trans hc1, ?_⟩
              rw [← hc1]
          · rw [getF_setF_other _ _ hcw] at h'
            exact Or.inl h'
      · exact Or.inl h'
    · exact Or.inr ⟨cl', List.mem_cons_of_mem _ hm, h1, h2, h3⟩

/-- C4: within the alias-assignment loop of `extract_query`, every value an
alias contributes to the accumulated fields is added under the alias's
winning column — the highest-priority column among its candidates — and is
the canonicalization of one of the alias's candidates for that column.  (The
later CSV-completion phase adds values by a separate mechanism; see the
counterexample.) -/
theorem c4_alias_values_go_to_winner (L : NlpExtract.LabelsByCol)
    (np : Bool) (rs : List Str) (st : List (Str × List Str) × List Str)
    (akcl : Str × List (Str × Str)) (col v : Str)
    (hmem : v ∈ getF (NlpExtract.aliasStep L np rs st akcl).1 col)
    (hnew : v ∉ getF st.1 col) :
    NlpExtract.aliasWin akcl.2 = some col ∧
      ∃ cl ∈ akcl.2, cl.1 = col ∧
        v = NlpExtract.canonicalize_label L col cl.2 := by
  unfold NlpExtract.aliasStep at hmem
  simp only [] at hmem
  split at hmem
  · exact absurd hmem hnew
  · rename_i win_col snd tail heq
    split at hmem
    · exact absurd hmem hnew
    · rw [heq] at hmem
      rcases aliasInner_fold_mem L win_col ((win_col, snd) :: tail) st.1 []
          col v hmem with h | ⟨cl, hclm, h1, h2, h3⟩
      · exact absurd h hnew
      · subst h2
        refine ⟨?_, ?_⟩
        · unfold NlpExtract.aliasWin
          rw [heq]
          rfl
        · have hcl2 : cl ∈ sortStable
              (fun a b => NlpExtract.prio a.1 < NlpExtract.prio b.1) akcl.2 := by
            rw [heq]; exact hclm
          exact ⟨cl, mem_sortStable.mp hcl2, h1, h3⟩

theorem c4_alias_values_go_to_winner_witness :
    (['g','r','i','n','d','w','o','r','k'] ∈ getF
        (NlpExtract.aliasStep labelsFx false [] ([(Col.«機械カテゴリー», [])], [])
          (['g','r','i','n','d'],
            [(Col.«作業名», ['g','r','i','n','d','w','o','r','k']),
             (Col.«機械カテゴリー», ['g','r','i','n','d'])])).1 Col.«作業名») ∧
    (NlpExtract.aliasWin
        [(Col.«作業名», ['g','r','i','n','d','w','o','r','k']),
         (Col.«機械カテゴリー», ['g','r','i','n','d'])] = some Col.«作業名» ∧
      ∃ cl ∈ [(Col.«作業名», ['g','r','i','n','d','w','o','r','k']),
              (Col.«機械カテゴリー», ['g','r','i','n','d'])],
        cl.1 = Col.«作業名» ∧
          ['g','r','i','n','d','w','o','r','k'] =
            NlpExtract.canonicalize_label labelsFx Col.«作業名» cl.2) :=
  ⟨by decide,
   c4_alias_values_go_to_winner labelsFx false [] ([(Col.«機械カテゴリー», [])], [])
     (['g','r','i','n','d'],
       [(Col.«作業名», ['g','r','i','n','d','w','o','r','k']),
        (Col.«機械カテゴリー», ['g','r','i','n','d'])])
     Col.«作業名» ['g','r','i','n','d','w','o','r','k'] (by decide) (by decide)⟩

/-- C4 counterexample: on the fixture index, the alias `grind` has
candidates in both the task-name and machine-category columns; the
task-name column wins, yet the final query of `extract_query` also holds
`grind` — the alias's canonical value for the losing machine-category
column — because the literal-mode CSV completion re-adds it from the raw
tokens, ignoring the consumed-alias set. -/
theorem c4_counterexample :
    NlpExtract.gather_alias_hits_all_cols aliasIdxFx textFx =
      [(['g','r','i','n','d'],
        [(Col.«作業名», ['g','r','i','n','d','w','o','r','k']),
         (Col.«機械カテゴリー», ['g','r','i','n','d'])])] ∧
    NlpExtract.aliasWin
        [(Col.«作業名», ['g','r','i','n','d','w','o','r','k']),
         (Col.«機械カテゴリー», ['g','r','i','n','d'])] = some Col.«作業名» ∧
    ['g','r','i','n','d'] ∈ getF
        (NlpExtract.extract_query aliasIdxFx labelsFx textFx).fields
        Col.«機械カテゴリー» := by
  refine ⟨by decide, by decide, by decide⟩

theorem lookupIdx_updateIdx_self :
    ∀ (idx : List ((Str × Str × Str × Str) × SearchCore.StageIdx)) (k)
      (f : SearchCore.StageIdx → SearchCore.StageIdx),
      SearchCore.lookupIdx (SearchCore.updateIdx idx k f) k =
        some (f ((SearchCore.lookupIdx idx k).getD {})) := by
  intro idx k f
  induction idx with
  | nil => simp [SearchCore.updateIdx, SearchCore.lookupIdx]
  | cons p rest ih =>
    obtain ⟨k', b⟩ := p
    unfold SearchCore.updateIdx
    split
    · rename_i hk
      unfold SearchCore.lookupIdx
      rw [if_pos rfl, hk]
      unfold SearchCore.lookupIdx
      rw [if_pos rfl]
      rfl
    · rename_i hk
      unfold SearchCore.lookupIdx
      rw [if_neg hk, if_neg hk]
      exact ih

theorem lookupIdx_updateIdx_other
    {idx : List ((Str × Str × Str × Str) × SearchCore.StageIdx)} {k k'}
    {f : SearchCore.StageIdx → SearchCore.StageIdx} (h : k' ≠ k) :
    SearchCore.lookupIdx (SearchCore.updateIdx idx k f) k' =
      SearchCore.lookupIdx idx k' := by
  induction idx with
  | nil =>
    unfold SearchCore.updateIdx SearchCore.lookupIdx
    rw [if_neg fun he => h he.symm]
    rfl
  | cons p rest ih =>
    obtain ⟨k'', b⟩ := p
    unfold SearchCore.updateIdx
    split
    · rename_i hk
      unfold SearchCore.lookupIdx
      rw [if_neg fun he => h he.symm, hk, if_neg fun he => h he.symm]
    · unfold SearchCore.lookupIdx
      split
      · rfl
      · exact ih

theorem mem_bucketOf_upd1 {s : Str} {b : SearchCore.StageIdx} {r' c : Row}
    (h : c ∈ SearchCore.bucketOf s b) :
    c ∈ SearchCore.bucketOf s { b with «一次工程» := b.«一次工程» ++ [r'] } := by
  unfold SearchCore.bucketOf at h ⊢
  split at h
  · rename_i h1; rw [if_pos h1]; exact List.mem_append_left _ h
  · split at h
    · rename_i h1 h2; rw [if_neg h1, if_pos h2]; exact h
    · rename_i h1 h2; rw [if_neg h1, if_neg h2]; exact h

theorem mem_bucketOf_upd2 {s : Str} {b : SearchCore.StageIdx} {r' c : Row}
    (h : c ∈ SearchCore.bucketOf s b) :
    c ∈ SearchCore.bucketOf s { b with «二次工程» := b.«二次工程» ++ [r'] } := by
  unfold SearchCore.bucketOf at h ⊢
  split at h
  · rename_i h1; rw [if_pos h1]; exact h
  · split at h
    · rename_i h1 h2; rw [if_neg h1, if_pos h2]; exact List.mem_append_left _ h
    · rename_i h1 h2; rw [if_neg h1, if_neg h2]; exact h

theorem mem_bucketOf_upd3 {s : Str} {b : SearchCore.StageIdx} {r' c : Row}
    (h : c ∈ SearchCore.bucketOf s b) :
    c ∈ SearchCore.bucketOf s { b with «単一» := b.«単一» ++ [r'] } := by
  unfold SearchCore.bucketOf at h ⊢
  split at h
  · rename_i h1; rw [if_pos h1]; exact h
  · split at h
    · rename_i h1 h2; rw [if_neg h1, if_pos h2]; exact h
    · rename_i h1 h2; rw [if_neg h1, if_neg h2]; exact List.mem_append_left _ h

theorem idxStep_insert (idx) (r : Row) :
    ∃ b, SearchCore.lookupIdx (SearchCore.idxStep idx r) (SearchCore.pair_key r) =
        some b ∧ r ∈ SearchCore.bucketOf (pyStrip r.«工程数») b := by
  unfold SearchCore.idxStep
  simp only []
  split
  · rename_i h1
    refine ⟨_, lookupIdx_updateIdx_self .., ?_⟩
    unfold SearchCore.bucketOf
    rw [if_pos h1]
    exact List.mem_append_right _ (List.mem_singleton.mpr rfl)
  · split
    · rename_i h1 h2
      refine ⟨_, lookupIdx_updateIdx_self .., ?_⟩
      unfold SearchCore.bucketOf
      rw [if_neg h1, if_pos h2]
      exact List.mem_append_right _ (List.mem_singleton.mpr rfl)
    · rename_i h1 h2
      refine ⟨_, lookupIdx_updateIdx_self .., ?_⟩
      unfold SearchCore.bucketOf
      rw [if_neg h1, if_neg h2]
      exact List.mem_append_right _ (List.mem_singleton.mpr rfl)

theorem idxStep_preserves {idx} {k} {c : Row} {s : Str} (r' : Row)
    (h : ∃ b, SearchCore.lookupIdx idx k = some b ∧ c ∈ SearchCore.bucketOf s b) :
    ∃ b', SearchCore.lookupIdx (SearchCore.idxStep idx r') k = some b' ∧
      c ∈ SearchCore.bucketOf s b' := by
  obtain ⟨b, hb, hc⟩ := h
  unfold SearchCore.idxStep
  simp only []
  by_cases hk : SearchCore.pair_key r' = k
  · subst hk
    split
    · rw [lookupIdx_updateIdx_self, hb]
      exact ⟨_, rfl, mem_bucketOf_upd1 hc⟩
    · split
      · rw [lookupIdx_updateIdx_self, hb]
        exact ⟨_, rfl, mem_bucketOf_upd2 hc⟩
      · rw [lookupIdx_updateIdx_self, hb]
        exact ⟨_, rfl, mem_bucketOf_upd3 hc⟩
  · have hne : k ≠ SearchCore.pair_key r' := fun he => hk he.symm
    split
    · rw [lookupIdx_updateIdx_other hne]
      exact ⟨b, hb, hc⟩
    · split
      · rw [lookupIdx_updateIdx_other hne]
        exact ⟨b, hb, hc⟩
      · rw [lookupIdx_updateIdx_other hne]
        exact ⟨b, hb, hc⟩

theorem idxFold_preserves :
    ∀ (rows : List Row) {idx} {k} {c : Row} {s : Str},
      (∃ b, SearchCore.lookupIdx idx k = some b ∧ c ∈ SearchCore.bucketOf s b) →
      ∃ b', SearchCore.lookupIdx (rows.foldl SearchCore.idxStep idx) k = some b' ∧
        c ∈ SearchCore.bucketOf s b' := by
  intro rows
  induction rows with
  | nil => intro idx k c s h; exact h
  | cons r rs ih =>
    intro idx k c s h
    rw [List.foldl_cons]
    exact ih (idxStep_preserves r h)

theorem idxFold_complete :
    ∀ (rows : List Row) (idx) {c : Row}, c ∈ rows →
      ∃ b, SearchCore.lookupIdx (rows.foldl SearchCore.idxStep idx)
          (SearchCore.pair_key c) = some b ∧
        c ∈ SearchCore.bucketOf (pyStrip c.«工程数») b := by
  intro rows
  induction rows with
  | nil => intro idx c h; cases h
  | cons r rs ih =>
    intro idx c h
    rw [List.foldl_cons]
    rcases List.mem_cons.mp h with rfl | h'
    · exact idxFold_preserves rs (idxStep_insert idx c)
    · exact ih _ h'

theorem stage_index_complete (prev : List Row) {c : Row} (h : c ∈ prev) :
    ∃ b, SearchCore.lookupIdx (SearchCore.build_stage_index prev)
        (SearchCore.pair_key c) = some b ∧
      c ∈ SearchCore.bucketOf (pyStrip c.«工程数») b :=
  idxFold_complete prev [] h

theorem sigStep_sig_grow (st2) (d : Row) {s : List Str} (h : s ∈ st2.2) :
    s ∈ (SearchCore.sigStep st2 d).2 := by
  unfold SearchCore.sigStep
  simp only []
  split
  · exact h
  · exact List.mem_append_left _ h

theorem sigFold_sig_grow :
    ∀ (cands : List Row) (st2) {s : List Str}, s ∈ st2.2 →
      s ∈ (cands.foldl SearchCore.sigStep st2).2 := by
  intro cands
  induction cands with
  | nil => intro st2 s h; exact h
  | cons d ds ih =>
    intro st2 s h
    rw [List.foldl_cons]
    exact ih _ (sigStep_sig_grow st2 d h)

theorem sigFold_sig_mem :
    ∀ (cands : List Row) (st2) {c : Row}, c ∈ cands →
      SearchCore.sigOf c ∈ (cands.foldl SearchCore.sigStep st2).2 := by
  intro cands
  induction cands with
  | nil => intro st2 c h; cases h
  | cons d ds ih =>
    intro st2 c h
    rw [List.foldl_cons]
    rcases List.mem_cons.mp h with rfl | h'
    · apply sigFold_sig_grow ds _
      unfold SearchCore.sigStep
      simp only []
      split
      · rename_i hin; exact hin
      · exact List.mem_append_right _ (List.mem_singleton.mpr rfl)
    · exact ih _ h'

theorem sigStep_inv2 {st2} (d : Row)
    (h : ∀ s ∈ st2.2, ∃ a ∈ st2.1, SearchCore.sigOf a = s) :
    ∀ s ∈ (SearchCore.sigStep st2 d).2,
      ∃ a ∈ (SearchCore.sigStep st2 d).1, SearchCore.sigOf a = s := by
  unfold SearchCore.sigStep
  simp only []
  split
  · exact h
  · intro s hs
    rcases List.mem_append.mp hs with hold | hnew
    · obtain ⟨a, ha, hsa⟩ := h s hold
      exact ⟨a, List.mem_append_left _ ha, hsa⟩
    · rcases List.mem_singleton.mp hnew with rfl
      exact ⟨{ d with pair_candidate := true },
        List.mem_append_right _ (List.mem_singleton.mpr rfl), rfl⟩

theorem sigFold_inv2 :
    ∀ (cands : List Row) (st2),
      (∀ s ∈ st2.2, ∃ a ∈ st2.1, SearchCore.sigOf a = s) →
      ∀ s ∈ (cands.foldl SearchCore.sigStep st2).2,
        ∃ a ∈ (cands.foldl SearchCore.sigStep st2).1, SearchCore.sigOf a = s := by
  intro cands
  induction cands with
  | nil => intro st2 h; exact h
  | cons d ds ih =>
    intro st2 h
    rw [List.foldl_cons]
    exact ih _ (sigStep_inv2 d h)

theorem augStep_inv2 (pidx) (r : Row) {st}
    (h : ∀ s ∈ st.2, ∃ a ∈ st.1, SearchCore.sigOf a = s) :
    ∀ s ∈ (SearchCore.augStep pidx st r).2,
      ∃ a ∈ (SearchCore.augStep pidx st r).1, SearchCore.sigOf a = s := by
  unfold SearchCore.augStep
  simp only []
  split
  · exact h
  · exact sigFold_inv2 _ st h

theorem augFold_inv2 :
    ∀ (l : List Row) (pidx) (st),
      (∀ s ∈ st.2, ∃ a ∈ st.1, SearchCore.sigOf a = s) →
      ∀ s ∈ (l.foldl (SearchCore.augStep pidx) st).2,
        ∃ a ∈ (l.foldl (SearchCore.augStep pidx) st).1, SearchCore.sigOf a = s := by
  intro l
  induction l with
  | nil => intro pidx st h; exact h
  | cons r rs ih =>
    intro pidx st h
    rw [List.foldl_cons]
    exact ih pidx _ (augStep_inv2 pidx r h)

theorem sigStep_mono {st2} (d : Row) {x : Row} (h : x ∈ st2.1) :
    x ∈ (SearchCore.sigStep st2 d).1 := by
  unfold SearchCore.sigStep
  simp only []
  split
  · exact h
  · exact List.mem_append_left _ h

theorem sigFold_mono :
    ∀ (cands : List Row) (st2) {x : Row}, x ∈ st2.1 →
      x ∈ (cands.foldl SearchCore.sigStep st2).1 := by
  intro cands
  induction cands with
  | nil => intro st2 x h; exact h
  | cons d ds ih =>
    intro st2 x h
    rw [List.foldl_cons]
    exact ih _ (sigStep_mono d h)

theorem augStep_mono (pidx) (r : Row) {st} {x : Row} (h : x ∈ st.1) :
    x ∈ (SearchCore.augStep pidx st r).1 := by
  unfold SearchCore.augStep
  simp only []
  split
  · exact h
  · exact sigFold_mono _ st h

theorem augFold_mono :
    ∀ (l : List Row) (pidx) (st) {x : Row}, x ∈ st.1 →
      x ∈ (l.foldl (SearchCore.augStep pidx) st).1 := by
  intro l
  induction l with
  | nil => intro pidx st x h; exact h
  | cons r rs ih =>
    intro pidx st x h
    rw [List.foldl_cons]
    exact ih pidx _ (augStep_mono pidx r h)

theorem sigStep_addonly (st2) (d : Row) :
    ∃ ad, (SearchCore.sigStep st2 d).1 = st2.1 ++ ad ∧
      ∀ a ∈ ad, a.pair_candidate = true := by
  unfold SearchCore.sigStep
  simp only []
  split
  · exact ⟨[], (List.append_nil _).symm, by simp⟩
  · exact ⟨[{ d with pair_candidate := true }], rfl, by simp⟩

theorem sigFold_addonly :
    ∀ (cands : List Row) (st2),
      ∃ ad, (cands.foldl SearchCore.sigStep st2).1 = st2.1 ++ ad ∧
        ∀ a ∈ ad, a.pair_candidate = true := by
  intro cands
  induction cands with
  | nil => intro st2; exact ⟨[], (List.append_nil _).symm, by simp⟩
  | cons d ds ih =>
    intro st2
    rw [List.foldl_cons]
    obtain ⟨ad1, h1, hp1⟩ := sigStep_addonly st2 d
    obtain ⟨ad2, h2, hp2⟩ := ih (SearchCore.sigStep st2 d)
    refine ⟨ad1 ++ ad2, ?_, ?_⟩
    · rw [h2, h1, List.append_assoc]
    · intro a ha
      rcases List.mem_append.mp ha with h | h
      · exact hp1 a h
      · exact hp2 a h

theorem augStep_addonly (pidx) (st) (r : Row) :
    ∃ ad, (SearchCore.augStep pidx st r).1 = st.1 ++ ad ∧
      ∀ a ∈ ad, a.pair_candidate = true := by
  unfold SearchCore.augStep
  simp only []
  split
  · exact ⟨[], (List.append_nil _).symm, by simp⟩
  · exact sigFold_addonly _ st

theorem augFold_addonly :
    ∀ (l : List Row) (pidx) (st),
      ∃ ad, (l.foldl (SearchCore.augStep pidx) st).1 = st.1 ++ ad ∧
        ∀ a ∈ ad, a.pair_candidate = true := by
  intro l
  induction l with
  | nil => intro pidx st; exact ⟨[], (List.append_nil _).symm, by simp⟩
  | cons r rs ih =>
    intro pidx st
    rw [List.foldl_cons]
    obtain ⟨ad1, h1, hp1⟩ := augStep_addonly pidx st r
    obtain ⟨ad2, h2, hp2⟩ := ih pidx (SearchCore.augStep pidx st r)
    refine ⟨ad1 ++ ad2, ?_, ?_⟩
    · rw [h2, h1, List.append_assoc]
    · intro a ha
      rcases List.mem_append.mp ha with h | h
      · exact hp1 a h
      · exact hp2 a h

theorem sig_determines {a c : Row} (h : SearchCore.sigOf a = SearchCore.sigOf c) :
    pyStrip a.«工程数» = pyStrip c.«工程数» ∧
      SearchCore.pair_key a = SearchCore.pair_key c := by
  unfold SearchCore.sigOf at h
  simp only [List.cons.injEq, and_true] at h
  obtain ⟨h1, h2, h3, h4, h5, _h6, _h7⟩ := h
  constructor
  · rw [h5]
  · unfold SearchCore.pair_key
    rw [h1, h2, h3, h4]

/-- C8: `augment_with_pair_candidates` only appends rows, every appended
row is marked `pair_candidate`, and for every current row of exact stage
`一次工程`/`二次工程` whose opposite stage exists in the previous
unfiltered rows under the same pair key, the output contains an
opposite-stage row of that pair key.  (The claimed guarantee fails for
`reorder_and_pair`; see the counterexample.) -/
theorem c8_augment_completes_pairs (cur prev : List Row) :
    (∃ added, SearchCore.augment_with_pair_candidates cur prev = cur ++ added ∧
      ∀ a ∈ added, a.pair_candidate = true) ∧
    ∀ r ∈ cur, ∀ c ∈ prev,
      (pyStrip r.«工程数» = ['一', '次', '工', '程'] ∨
        pyStrip r.«工程数» = ['二', '次', '工', '程']) →
      pyStrip c.«工程数» = SearchCore.oppStage (pyStrip r.«工程数») →
      SearchCore.pair_key c = SearchCore.pair_key r →
      ∃ c' ∈ SearchCore.augment_with_pair_candidates cur prev,
        pyStrip c'.«工程数» = SearchCore.oppStage (pyStrip r.«工程数») ∧
        SearchCore.pair_key c' = SearchCore.pair_key r := by
  constructor
  · unfold SearchCore.augment_with_pair_candidates
    by_cases hg : cur = [] ∨ prev = []
    · rw [if_pos hg]
      exact ⟨[], (List.append_nil _).symm, by simp⟩
    · rw [if_neg hg]
      exact augFold_addonly cur _ (cur, [])
  · intro r hr c hc hstage hopp hkey
    have hcur : cur ≠ [] := fun he => by rw [he] at hr; cases hr
    have hprev : prev ≠ [] := fun he => by rw [he] at hc; cases hc
    unfold SearchCore.augment_with_pair_candidates
    rw [if_neg (not_or.mpr ⟨hcur, hprev⟩)]
    obtain ⟨l1, l2, hcur_eq⟩ := List.append_of_mem hr
    rw [hcur_eq, List.foldl_append, List.foldl_cons]
    obtain ⟨b, hb, hcb⟩ := stage_index_complete prev hc
    rw [hkey] at hb
    have hinv : ∀ s ∈ (l1.foldl
          (SearchCore.augStep (SearchCore.build_stage_index prev))
          (l1 ++ r :: l2, [])).2,
        ∃ a ∈ (l1.foldl (SearchCore.augStep (SearchCore.build_stage_index prev))
          (l1 ++ r :: l2, [])).1, SearchCore.sigOf a = s :=
      augFold_inv2 l1 _ _ (by intro s hs; cases hs)
    have hcand : c ∈ (if pyStrip r.«工程数» = ['二', '次', '工', '程'] then
        b.«一次工程» else b.«二次工程») := by
      rcases hstage with hst | hst
      · rw [hst, if_neg (by decide)]
        have hc2 : pyStrip c.«工程数» = ['二', '次', '工', '程'] := by
          rw [hopp, hst]; decide
        rw [hc2] at hcb
        have hbc : SearchCore.bucketOf ['二', '次', '工', '程'] b =
            b.«二次工程» := by
          unfold SearchCore.bucketOf
          rw [if_neg (by decide), if_pos rfl]
        rw [hbc] at hcb
        exact hcb
      · rw [hst, if_pos rfl]
        have hc2 : pyStrip c.«工程数» = ['一', '次', '工', '程'] := by
          rw [hopp, hst]; decide
        rw [hc2] at hcb
        have hbc : SearchCore.bucketOf ['一', '次', '工', '程'] b =
            b.«一次工程» := by
          unfold SearchCore.bucketOf
          rw [if_pos rfl]
        rw [hbc] at hcb
        exact hcb
    have hstep : SearchCore.augStep (SearchCore.build_stage_index prev)
        (l1.foldl (SearchCore.augStep (SearchCore.build_stage_index prev))
          (l1 ++ r :: l2, [])) r =
        (if pyStrip r.«工程数» = ['二', '次', '工', '程'] then
          b.«一次工程» else b.«二次工程»).foldl SearchCore.sigStep
          (l1.foldl (SearchCore.augStep (SearchCore.build_stage_index prev))
            (l1 ++ r :: l2, [])) := by
      unfold SearchCore.augStep
      simp only [hb]
      rw [if_neg ?hskip]
      case hskip =>
        rcases hstage with hst | hst
        · exact fun hand => hand.1 hst
        · exact fun hand => hand.2 hst
    rw [hstep]
    have hsig : SearchCore.sigOf c ∈ ((if pyStrip r.«工程数» =
        ['二', '次', '工', '程'] then b.«一次工程» else b.«二次工程»).foldl
        SearchCore.sigStep (l1.foldl
          (SearchCore.augStep (SearchCore.build_stage_index prev))
          (l1 ++ r :: l2, []))).2 :=
      sigFold_sig_mem _ _ hcand
    obtain ⟨a, ha, hsa⟩ := sigFold_inv2 _ _ hinv _ hsig
    obtain ⟨hstage_a, hkey_a⟩ := sig_determines hsa
    refine ⟨a, augFold_mono l2 _ _ ha, hstage_a.trans hopp, hkey_a.trans hkey⟩

theorem c8_augment_completes_pairs_witness :
    ∃ c' ∈ SearchCore.augment_with_pair_candidates [rowFxP2] [rowFxQ2],
      pyStrip c'.«工程数» = SearchCore.oppStage (pyStrip rowFxP2.«工程数») ∧
      SearchCore.pair_key c' = SearchCore.pair_key rowFxP2 :=
  (c8_augment_completes_pairs [rowFxP2] [rowFxQ2]).2 rowFxP2 (by decide)
    rowFxQ2 (by decide) (by decide) (by decide) (by decide)

/-- C8 counterexample: on the fixtures, `reorder_and_pair` outputs the
primary-stage hit `rowFxP` for its group key, the unfiltered superset
`[rowFxQ]` holds a secondary-stage row of the same group key, yet no output
row has secondary canonical stage: the copied `rowFxQ` shares its empty
work-id `_row_id` with the single-stage hit `rowFxS` and is dropped by the
final deduplication.  (Moreover, `reorder_and_pair` marks no row at all.) -/
theorem c8_counterexample :
    Postprocess.reorder_and_pair [rowFxQ] [rowFxS, rowFxP] = [rowFxS, rowFxP] ∧
    rowFxP ∈ Postprocess.reorder_and_pair [rowFxQ] [rowFxS, rowFxP] ∧
    Postprocess.canon_stage rowFxP.«工程数» = ['一', '次'] ∧
    rowFxQ ∈ [rowFxQ] ∧
    Postprocess.canon_stage rowFxQ.«工程数» = ['二', '次'] ∧
    Postprocess.row_key_for_group rowFxQ = Postprocess.row_key_for_group rowFxP ∧
    (∀ r ∈ Postprocess.reorder_and_pair [rowFxQ] [rowFxS, rowFxP],
      Postprocess.canon_stage r.«工程数» ≠ ['二', '次']) := by
  refine ⟨by decide, by decide, by decide, by decide, by decide, by decide, by decide⟩

end LineSearchBot
